import Mathlib

/-!
Verification development for the `opengnk` proxy (gonkalabs/opengnk).

This file gives a shallow embedding, in Lean 4, of the pure core of the
proxy's Go code, and proves (or refutes) the specification claims about it:

* `internal/sanitize/sanitize.go` — span validation, sorting, deduplication,
  placeholder token map, redaction and restoration;
* `internal/sanitize/stream.go`   — the streaming placeholder restorer;
* `internal/signer/signer.go`     — deterministic ECDSA-secp256k1 signing;
* `internal/upstream/client.go`   — the retry / endpoint-selection loop;
* `internal/toolsim/toolsim.go`   — the tool-call response parser;
* `cmd/proxy/main.go`             — classifier configuration.

Modelling conventions:

* Go byte strings are `List Nat` (each entry a byte value).  Go `int` offsets
  that may be negative are `Int`.
* Go maps used as association stores (`TokenMap`) are association lists; the
  process-wide atomic counter is threaded explicitly as state.
* Network I/O and the Go standard JSON parser are modelled as explicit
  function parameters (oracles); everything downstream of them is translated
  from the source.
* Go `for` loops whose termination is not structural are modelled with an
  explicit fuel argument; all uses supply enough fuel for the executions the
  theorems talk about.
-/

/-- ASCII bytes of a Lean string literal (used only for ASCII literals). -/
def asciiBytes (s : String) : List Nat := s.data.map Char.toNat

/-- The two UTF-8 bytes of the opening guillemet `«`. -/
def guillOpen : List Nat := [194, 171]

/-- The two UTF-8 bytes of the closing guillemet `»`. -/
def guillClose : List Nat := [194, 187]

/-- Fueled helper for `natDigits` (structural recursion so the kernel can
evaluate it; fuel `n + 1` always suffices). -/
def natDigitsAux : Nat → Nat → List Nat
  | 0, _ => []
  | fuel + 1, n =>
    if n < 10 then [48 + n]
    else natDigitsAux fuel (n / 10) ++ [48 + n % 10]

/-- Big-endian decimal ASCII digits of a natural number (no leading zeros;
`0` renders as `"0"`), as produced by Go's `fmt` `%d` verb. -/
def natDigits (n : Nat) : List Nat := natDigitsAux (n + 1) n

/-- Left-pad a digit string with ASCII `0` to width `w`, as Go's `%0wd`
padding does (strings already at least `w` long are unchanged). -/
def padZeros (w : Nat) (ds : List Nat) : List Nat :=
  List.replicate (w - ds.length) 48 ++ ds

/-- Go `fmt.Sprintf("«TOKEN_%06d»", id)` from `TokenMap.register`
(sanitize.go): the placeholder token for a given counter value. -/
def tokenFor (id : Nat) : List Nat :=
  guillOpen ++ asciiBytes "TOKEN_" ++ padZeros 6 (natDigits id) ++ guillClose

/-- Decimal value of an ASCII digit string (parsing inverse used in proofs
about `natDigits`). -/
def parseDigits (ds : List Nat) : Nat :=
  ds.foldl (fun acc d => acc * 10 + (d - 48)) 0

/-! ## Spans and span validation (`internal/sanitize/sanitize.go`) -/

/-- The `Span` from classifier.go.  `Start`/`End` are Go `int` byte offsets, so
they are embedded as `Int` (classifiers may return out-of-range or negative
offsets; `validSpans` filters them).  The `Label` tag is carried along; the
informational float `Score` is not used by any embedded function and is
omitted (floating point is outside the embedding). -/
structure Span where
  start : Int
  stop : Int
  label : List Nat
deriving DecidableEq, Repr

/-- The word-boundary byte set of `wordBoundaryBytes` / `isWordBoundaryByte`
(sanitize.go): the bytes of `" \t\n\r<>(),;[]{}\"'`"`. -/
def isWordBoundaryByte (b : Nat) : Bool :=
  b = 32 ∨ b = 9 ∨ b = 10 ∨ b = 13 ∨ b = 60 ∨ b = 62 ∨ b = 40 ∨ b = 41 ∨
  b = 44 ∨ b = 59 ∨ b = 91 ∨ b = 93 ∨ b = 123 ∨ b = 125 ∨ b = 34 ∨
  b = 39 ∨ b = 96

/-- The `isRuneBoundary` (sanitize.go): offset 0 and `len(s)` are boundaries;
otherwise the byte at `i` must not be a UTF-8 continuation byte
(`s[i]&0xC0 != 0x80`). -/
def isRuneBoundary (s : List Nat) (i : Nat) : Bool :=
  if i = 0 ∨ i = s.length then true
  else ¬ (s.getD i 0) % 256 / 64 = 2

/-- Whether a placeholder `«TOKEN_<digits>»` match of `tokenPlaceholderRe`
starts at the head of `s`: the prefix `«TOKEN_`, then one or more ASCII
digits, then `»`.  (Since `0xC2` is not a digit, greedy and non-greedy digit
runs agree, so this is exactly regexp `MatchString` anchored at the head.) -/
def tokenMatchAtHead (s : List Nat) : Bool :=
  (guillOpen ++ asciiBytes "TOKEN_").isPrefixOf s ∧
  (let rest := s.drop 8
   let ds := rest.takeWhile (fun b => decide (48 ≤ b ∧ b ≤ 57))
   ds.length ≥ 1 ∧ guillClose.isPrefixOf (rest.drop ds.length))

/-- The `tokenPlaceholderRe.MatchString` (sanitize.go): some suffix of `s`
starts with a full `«TOKEN_<digits>»` placeholder. -/
def containsTokenPlaceholder (s : List Nat) : Bool :=
  (List.range (s.length + 1)).any (fun i => tokenMatchAtHead (s.drop i))

/-- Go slice `text[a:b]` for `0 ≤ a ≤ b ≤ len text` (callers establish the
bounds before slicing, as the Go code does). -/
def goSlice (text : List Nat) (a b : Int) : List Nat :=
  (text.take b.toNat).drop a.toNat

/-- The `validSpans` (sanitize.go), translated clause by clause: each `continue`
in the Go loop is one nested `if` here, in source order. -/
def validSpans (text : List Nat) : List Span → List Span
  | [] => []
  | sp :: rest =>
    if sp.start < 0 ∨ sp.stop > (text.length : Int) ∨ sp.start ≥ sp.stop then
      validSpans text rest
    else if ¬ (isRuneBoundary text sp.start.toNat ∧ isRuneBoundary text sp.stop.toNat) then
      validSpans text rest
    else if containsTokenPlaceholder (goSlice text sp.start sp.stop) then
      validSpans text rest
    else if sp.start > 0 ∧ ¬ isWordBoundaryByte (text.getD (sp.start.toNat - 1) 0) then
      validSpans text rest
    else if sp.stop < (text.length : Int) ∧ ¬ isWordBoundaryByte (text.getD sp.stop.toNat 0) then
      validSpans text rest
    else
      sp :: validSpans text rest

/-- The validity condition exactly as claim C4 words it: offsets in range,
rune boundaries, no placeholder inside the substring, and word-boundary bytes
on the outside of both ends (where an outside byte exists). -/
def spanKeepSpec (text : List Nat) (sp : Span) : Bool :=
  0 ≤ sp.start ∧ sp.start < sp.stop ∧ sp.stop ≤ (text.length : Int) ∧
  isRuneBoundary text sp.start.toNat ∧ isRuneBoundary text sp.stop.toNat ∧
  ¬ containsTokenPlaceholder (goSlice text sp.start sp.stop) ∧
  (sp.start > 0 → isWordBoundaryByte (text.getD (sp.start.toNat - 1) 0)) ∧
  (sp.stop < (text.length : Int) → isWordBoundaryByte (text.getD sp.stop.toNat 0))

/-! ## Sorting, deduplication, token map, redaction application -/

/-- One insertion step of the in-place insertion sort `sortSpansDesc`
(sanitize.go): the element bubbles left past strictly smaller starts, so in
a sorted-descending prefix it lands after all elements with `start ≥` its
own (stable). -/
def insertSpanDesc (sp : Span) : List Span → List Span
  | [] => [sp]
  | y :: ys => if sp.start > y.start then sp :: y :: ys else y :: insertSpanDesc sp ys

/-- The `sortSpansDesc` (sanitize.go): insertion sort, descending by `Start`,
processing elements left to right. -/
def sortSpansDesc (spans : List Span) : List Span :=
  spans.foldl (fun acc x => insertSpanDesc x acc) []

/-- The loop of `deduplicateSpans` (sanitize.go) with its running
`lastStart` value (initially `-1`, the sentinel for "nothing kept yet"). -/
def dedupGo (lastStart : Int) : List Span → List Span
  | [] => []
  | sp :: rest =>
    if lastStart = -1 ∨ sp.stop ≤ lastStart then sp :: dedupGo sp.start rest
    else dedupGo lastStart rest

/-- The `deduplicateSpans` (sanitize.go): keep a span only if it ends at or
before the previously kept span's start (input assumed sorted descending). -/
def deduplicateSpans (spans : List Span) : List Span := dedupGo (-1) spans

/-- The `TokenMap` (sanitize.go): the two dictionaries, as association lists
(Go map iteration order is arbitrary; list order stands in for it). -/
structure TokenMap where
  toToken : List (List Nat × List Nat)
  fromToken : List (List Nat × List Nat)
deriving DecidableEq, Repr

def TokenMap.empty : TokenMap := ⟨[], []⟩

/-- Association-list lookup (Go map read `m[k]`). -/
def alookup (k : List Nat) : List (List Nat × List Nat) → Option (List Nat)
  | [] => none
  | (k2, v) :: rest => if k = k2 then some v else alookup k rest

/-- The `TokenMap.register` (sanitize.go).  The process-wide `globalCounter` is
threaded explicitly: `register` returns the token, the updated map, and the
updated counter.  A fresh original draws `counter+1` and formats it with
`fmt.Sprintf("«TOKEN_%06d»", id)` (= `tokenFor`). -/
def registerTok (tm : TokenMap) (counter : Nat) (original : List Nat) :
    List Nat × TokenMap × Nat :=
  match alookup original tm.toToken with
  | some tok => (tok, tm, counter)
  | none =>
    let id := counter + 1
    let tok := tokenFor id
    (tok, ⟨(original, tok) :: tm.toToken, (tok, original) :: tm.fromToken⟩, id)

/-- Go `strings.ReplaceAll(s, old, new)` on byte strings: replace each
non-overlapping occurrence of `old`, scanning left to right.  The recursion
is fueled; `s.length` fuel always suffices because each step consumes at
least one byte of `s` when `old` is non-empty (every `old` used in this
code is a non-empty placeholder token or its original). -/
def replaceAllFuel (old new : List Nat) : Nat → List Nat → List Nat
  | 0, s => s
  | fuel + 1, s =>
    if old ≠ [] ∧ old.isPrefixOf s then
      new ++ replaceAllFuel old new fuel (s.drop old.length)
    else
      match s with
      | [] => []
      | c :: rest => c :: replaceAllFuel old new fuel rest

def replaceAll (s old new : List Nat) : List Nat :=
  replaceAllFuel old new s.length s

/-- The `TokenMap.Restore` (sanitize.go): fold `strings.ReplaceAll` over the
`fromToken` entries (Go iterates the map in unspecified order; the list
order of this model is one such order). -/
def TokenMap.Restore (tm : TokenMap) (text : List Nat) : List Nat :=
  tm.fromToken.foldl (fun t kv => replaceAll t kv.1 kv.2) text

/-- The `Sanitizer.RestoreBytes` (sanitize.go): identity for a nil/empty map. -/
def RestoreBytes (respBody : List Nat) (tm : TokenMap) : List Nat :=
  if tm.toToken = [] then respBody else tm.Restore respBody

/-- The span-application loop shared by `redactText` and
`redactTextWithNER` (sanitize.go): walk the kept spans, register each
matched substring, splice the token in.  Also returns the list of `matched`
substrings the loop extracted, in loop order. -/
def applySpans (text : List Nat) (spans : List Span) (tm : TokenMap) (counter : Nat) :
    List Nat × TokenMap × Nat × List (List Nat) :=
  match spans with
  | [] => (text, tm, counter, [])
  | sp :: rest =>
    let matched := goSlice text sp.start sp.stop
    let r := registerTok tm counter matched
    let text2 := text.take sp.start.toNat ++ r.1 ++ text.drop sp.stop.toNat
    let rec2 := applySpans text2 rest r.2.1 r.2.2
    (rec2.1, rec2.2.1, rec2.2.2.1, matched :: rec2.2.2.2)

/-- Two spans occupy disjoint intervals (claim C5's wording). -/
def spanDisjoint (a b : Span) : Prop := a.stop ≤ b.start ∨ b.stop ≤ a.start

/-! ## Classifier configuration and the redaction pipeline -/

/-- The two classifier kinds that `cmd/proxy/main.go` can configure:
the NER sidecar client and the LLM classifier client.  Their network
behaviour is abstracted by a `classify` oracle below. -/
inductive CTag
  | ner
  | llm
deriving DecidableEq, Repr

/-- The classifier list built by `main` (cmd/proxy/main.go): NER first when
`SANITIZE_NER` is on, then the LLM classifier when `SANITIZE_LLM` is on. -/
def buildClassifiers (nerOn llmOn : Bool) : List CTag :=
  (if nerOn then [CTag.ner] else []) ++ (if llmOn then [CTag.llm] else [])

/-- The classifier slice used by `redactTextWithNER` (sanitize.go) for
history messages: drop the last classifier when more than one is
configured, otherwise run none
(`classifiers = classifiers[:len(classifiers)-1]` / `classifiers = nil`). -/
def historyClassifiers (cs : List CTag) : List CTag :=
  if cs.length > 1 then cs.dropLast else []

/-- The `runClassifiers` (sanitize.go) merges the spans of all launched
classifiers.  The Go code launches them concurrently and appends results in
completion order under a 120 s budget; this model takes a deterministic
`classify` oracle per classifier and concatenates in list order (one of the
possible completion orders, with every classifier finishing in budget). -/
def runClassifiers (classify : CTag → List Nat → List Span)
    (cs : List CTag) (text : List Nat) : List Span :=
  (cs.map (fun c => classify c text)).flatten

/-- The `Sanitizer.redactText` (sanitize.go): run the full classifier list,
validate, sort descending, deduplicate, and apply the spans. -/
def redactText (classify : CTag → List Nat → List Span) (cs : List CTag)
    (original : List Nat) (tm : TokenMap) (counter : Nat) :
    List Nat × TokenMap × Nat :=
  let allSpans := runClassifiers classify cs original
  if allSpans = [] then (original, tm, counter)
  else
    let kept := deduplicateSpans (sortSpansDesc (validSpans original allSpans))
    let r := applySpans original kept tm counter
    (r.1, r.2.1, r.2.2.1)

/-- The `Sanitizer.redactTextWithNER` (sanitize.go): same pipeline, but over
`historyClassifiers` (all classifiers except the last when two or more are
configured, none otherwise). -/
def redactTextWithNER (classify : CTag → List Nat → List Span) (cs : List CTag)
    (original : List Nat) (tm : TokenMap) (counter : Nat) :
    List Nat × TokenMap × Nat :=
  redactText classify (historyClassifiers cs) original tm counter

/-- Claim C3's wording for the history path: exactly the configured
non-LLM classifiers (the LLM classifier and only it excluded). -/
def nonLLMClassifiers (cs : List CTag) : List CTag :=
  cs.filter (fun c => c ≠ CTag.llm)

/-! ## The streaming restorer (`internal/sanitize/stream.go`) -/

/-- The `restoreBytes` (stream.go): apply every `fromToken` replacement to a
chunk (same iteration as `TokenMap.Restore`). -/
def streamRestoreBytes (b : List Nat) (tm : TokenMap) : List Nat :=
  tm.fromToken.foldl (fun t kv => replaceAll t kv.1 kv.2) b

/-- State of a `RestoringReader` (stream.go) plus its upstream source,
modelled as the list of chunks the source will deliver on successive
`Read` calls (after the last chunk the source reports `io.EOF` with no
bytes, as `bytes.Reader` and HTTP response bodies do). -/
structure RRState where
  src : List (List Nat)
  buf : List Nat
  srcEOF : Bool
deriving DecidableEq, Repr

/-- One `src.Read(tmp)` with a buffer of `tmpLen` bytes: deliver up to
`tmpLen` bytes of the next chunk; report EOF when no chunks remain. -/
def srcRead (src : List (List Nat)) (tmpLen : Nat) :
    List Nat × List (List Nat) × Bool :=
  match src with
  | [] => ([], [], true)
  | c :: rest =>
    if c.length ≤ tmpLen then (c, rest, false)
    else (c.take tmpLen, c.drop tmpLen :: rest, false)

/-- Result of one `RestoringReader.Read` call: bytes copied into `p`,
the successor state, and whether the call returned `io.EOF`. -/
structure RRRead where
  out : List Nat
  st : RRState
  eof : Bool
deriving DecidableEq, Repr

/-- The `RestoringReader.Read` (stream.go), translated line by line.  `p` is
modelled by its length `pLen`.  The Go method calls itself recursively after
buffering a short chunk; the recursion is fueled (each recursive call either
drains a non-empty buffer or consumes source chunks, so fuel
`src.length + 2` always suffices; the executions below use ample fuel). -/
def rrRead (tm : TokenMap) : Nat → RRState → Nat → RRRead
  | 0, st, _ => ⟨[], st, false⟩
  | _ + 1, st, 0 => ⟨[], st, false⟩
  | fuel + 1, st, pLen + 1 =>
    let pL := pLen + 1
    -- If we have buffered output ready, drain it first.
    if st.buf ≠ [] then
      ⟨st.buf.take pL, ⟨st.src, st.buf.drop pL, st.srcEOF⟩, false⟩
    else if st.srcEOF then
      ⟨[], st, true⟩
    else
      -- Read a chunk from upstream into tmp (sized 2·len(p)).
      let rd := srcRead st.src (2 * pL)
      let chunk := rd.1
      let src2 := rd.2.1
      let isEOF := rd.2.2
      if isEOF then
        -- EOF: the whole chunk is safe, and the held-back buffer is
        -- restored too (it is empty at this point in this branch).
        let restored := streamRestoreBytes chunk tm
        let copied := min pL restored.length
        let overflow := restored.drop copied
        ⟨restored.take copied, ⟨src2, overflow, true⟩, false⟩
      else if chunk.length ≤ 20 then
        -- Too short to split safely; buffer everything and read again.
        rrRead tm fuel ⟨src2, st.buf ++ chunk, false⟩ pL
      else
        let safe := chunk.take (chunk.length - 20)
        let held := chunk.drop (chunk.length - 20)
        let restored := streamRestoreBytes safe tm
        let copied := min pL restored.length
        let overflow := restored.drop copied
        ⟨restored.take copied, ⟨src2, overflow ++ held, false⟩, false⟩

/-- Drive `rrRead` to completion: collect the outputs of successive `Read`
calls (each with the same caller buffer size `pLen`) until the reader
reports EOF.  `steps` bounds the number of `Read` calls. -/
def rrReadAll (tm : TokenMap) (steps : Nat) (st : RRState) (pLen : Nat) :
    List (List Nat) :=
  match steps with
  | 0 => []
  | s + 1 =>
    let r := rrRead tm (st.src.length + 2) st pLen
    if r.eof then []
    else r.out :: rrReadAll tm s r.st pLen

/-! ## Concrete stream-restorer scenario (spec §8, scenario 3) -/

/-- A TokenMap holding one redaction: `«TOKEN_000001» ↦ "sk-abc123"`. -/
def tmEx : TokenMap :=
  ⟨[(asciiBytes "sk-abc123", tokenFor 1)], [(tokenFor 1, asciiBytes "sk-abc123")]⟩

/-- First upstream frame: `"hello «TOKEN_0000"` (the placeholder is split). -/
def chunkA : List Nat := asciiBytes "hello " ++ guillOpen ++ asciiBytes "TOKEN_0000"

/-- Second upstream frame: `"01»!"` (rest of the placeholder). -/
def chunkB : List Nat := asciiBytes "01" ++ guillClose ++ asciiBytes "!"

/-! ## JSON bodies (`encoding/json` boundary)

`Sanitizer.RedactMessages`, `toolsim.ParseResponse` and friends parse their
byte payloads with `encoding/json`.  The parsed shape is embedded as the
`Json` inductive below; the parser itself (`json.Unmarshal` of a raw body)
and the serializer (`json.Marshal`) are oracles (`jparse` / `jprint`)
passed to the embedded functions, since claims never depend on their
internals — only on what shape they returned. -/

inductive Json where
  | null
  | bool (b : Bool)
  | num (n : Int)
  | str (s : List Nat)
  | arr (elems : List Json)
  | obj (fields : List (List Nat × Json))

/-- Association lookup in a JSON object (Go map read `m[k]`). -/
def jlookup (k : List Nat) : List (List Nat × Json) → Option Json
  | [] => none
  | (k2, v) :: rest => if k = k2 then some v else jlookup k rest

/-- Upsert into a JSON object (Go map write `m[k] = v`; key order is
irrelevant because serialization goes through the `jprint` oracle). -/
def jset (k : List Nat) (v : Json) : List (List Nat × Json) → List (List Nat × Json)
  | [] => [(k, v)]
  | (k2, v2) :: rest => if k = k2 then (k, v) :: rest else (k2, v2) :: jset k v rest

/-- Go `json.Unmarshal` of a JSON value into `map[string]json.RawMessage`:
succeeds on an object; on `null` it leaves the map nil (no keys); any other
shape is an error. -/
def getObjFields : Json → Option (List (List Nat × Json))
  | Json.obj fields => some fields
  | Json.null => some []
  | _ => none

/-- Go `json.Unmarshal` into `[]map[string]json.RawMessage`: an array whose
every element unmarshals as an object map; `null` leaves the slice nil. -/
def asObjArray : Json → Option (List (List (List Nat × Json)))
  | Json.arr elems => elems.mapM getObjFields
  | Json.null => some []
  | _ => none

/-- Go `json.Unmarshal` into a Go `string` variable: a JSON string stores its
bytes; `null` is a no-op leaving the zero value `""`; otherwise an error. -/
def asGoString : Json → Option (List Nat)
  | Json.str s => some s
  | Json.null => some []
  | _ => none

def keyMessages : List Nat := asciiBytes "messages"

def keyRole : List Nat := asciiBytes "role"

def keyContent : List Nat := asciiBytes "content"

def keyText : List Nat := asciiBytes "text"

/-- Does this message have `role` equal to `"user"` (RedactMessages's
backward scan body: the `role` field must exist and unmarshal as a string
equal to `user`)? -/
def isUserMsg (msg : List (List Nat × Json)) : Bool :=
  match jlookup keyRole msg with
  | some r =>
    match asGoString r with
    | some s => s = asciiBytes "user"
    | none => false
  | none => false

/-- Index of the last message with role `user`, `-1` when none (the Go loop
scans from the end and breaks at the first hit; equivalently, the last
matching index). -/
def findLastUserIdx (messages : List (List (List Nat × Json))) : Int :=
  (List.range messages.length).foldl
    (fun acc i => if isUserMsg (messages.getD i []) then (i : Int) else acc) (-1)

/-- Per-message body of the RedactMessages loop: redact the `content`
field (string form, or multi-modal array of parts with `text` fields),
returning the updated message, token map, counter, and whether anything
changed.  `redactFn` is `redactText` for the last user message and
`redactTextWithNER` otherwise, exactly as in the Go loop. -/
def redactMsgContent
    (redactFn : List Nat → TokenMap → Nat → List Nat × TokenMap × Nat)
    (msg : List (List Nat × Json)) (tm : TokenMap) (counter : Nat) :
    List (List Nat × Json) × TokenMap × Nat × Bool :=
  match jlookup keyContent msg with
  | none => (msg, tm, counter, false)
  | some contentRaw =>
    match asGoString contentRaw with
    | some strContent =>
      let r := redactFn strContent tm counter
      if r.1 ≠ strContent then
        (jset keyContent (Json.str r.1) msg, r.2.1, r.2.2, true)
      else (msg, r.2.1, r.2.2, false)
    | none =>
      match asObjArray contentRaw with
      | none => (msg, tm, counter, false)
      | some parts =>
        let folded := parts.foldl
          (fun (acc : List (List (List Nat × Json)) × TokenMap × Nat × Bool) part =>
            match jlookup keyText part with
            | none => (acc.1 ++ [part], acc.2.1, acc.2.2.1, acc.2.2.2)
            | some textRaw =>
              match asGoString textRaw with
              | none => (acc.1 ++ [part], acc.2.1, acc.2.2.1, acc.2.2.2)
              | some text =>
                let r := redactFn text acc.2.1 acc.2.2.1
                if r.1 ≠ text then
                  (acc.1 ++ [jset keyText (Json.str r.1) part], r.2.1, r.2.2, true)
                else (acc.1 ++ [part], r.2.1, r.2.2, acc.2.2.2))
          ([], tm, counter, false)
        if folded.2.2.2 then
          (jset keyContent (Json.arr (folded.1.map Json.obj)) msg,
            folded.2.1, folded.2.2.1, true)
        else (msg, folded.2.1, folded.2.2.1, false)

/-- The indexed message loop of RedactMessages. -/
def redactMsgLoop (classify : CTag → List Nat → List Span) (cs : List CTag)
    (lastUserIdx : Int) :
    Nat → List (List (List Nat × Json)) → TokenMap → Nat →
    List (List (List Nat × Json)) × TokenMap × Nat × Bool
  | _, [], tm, counter => ([], tm, counter, false)
  | i, msg :: rest, tm, counter =>
    let redactFn := if (i : Int) = lastUserIdx then redactText classify cs
      else redactTextWithNER classify cs
    let r := redactMsgContent redactFn msg tm counter
    let rest2 := redactMsgLoop classify cs lastUserIdx (i + 1) rest r.2.1 r.2.2.1
    (r.1 :: rest2.1, rest2.2.1, rest2.2.2.1, r.2.2.2 ∨ rest2.2.2.2)

/-- The `Sanitizer.RedactMessages` (sanitize.go).  `jparse`/`jprint` are the
`encoding/json` oracles; `classify` the classifier-result oracle; `cs` the
configured classifier list; the global counter is threaded explicitly.
Returns (body, token map, counter). -/
def RedactMessages (jparse : List Nat → Option Json) (jprint : Json → List Nat)
    (classify : CTag → List Nat → List Span) (cs : List CTag)
    (body : List Nat) (counter : Nat) : List Nat × TokenMap × Nat :=
  let tm := TokenMap.empty
  match jparse body with
  | none =>
    -- invalid JSON: redact the whole body as one text
    let r := redactText classify cs body tm counter
    (r.1, r.2.1, r.2.2)
  | some j =>
    match getObjFields j with
    | none =>
      -- valid JSON but not an object: Unmarshal into the map fails, same path
      let r := redactText classify cs body tm counter
      (r.1, r.2.1, r.2.2)
    | some fields =>
      match jlookup keyMessages fields with
      | none => (body, tm, counter)
      | some messagesRaw =>
        match asObjArray messagesRaw with
        | none => (body, tm, counter)
        | some messages =>
          let lastUserIdx := findLastUserIdx messages
          let r := redactMsgLoop classify cs lastUserIdx 0 messages tm counter
          if r.2.2.2 then
            (jprint (Json.obj (jset keyMessages (Json.arr (r.1.map Json.obj)) fields)),
              r.2.1, r.2.2.1)
          else (body, r.2.1, r.2.2.1)

/-! ## Tool-call simulation: response parsing (`internal/toolsim/toolsim.go`) -/

/-- A declared tool, reduced to the only field the response parser reads:
`Tool.Function.Name`. -/
structure ToolDef where
  name : List Nat
deriving DecidableEq, Repr

/-- A `parsedToolCall` (toolsim.go): function name plus the raw JSON text of
its arguments. -/
structure PTC where
  name : List Nat
  args : List Nat
deriving DecidableEq, Repr

/-- ASCII white space for `strings.TrimSpace` (the payloads concerned are
ASCII JSON; Unicode spaces beyond these do not occur in them). -/
def isSpaceByte (b : Nat) : Bool := b = 32 ∨ b = 9 ∨ b = 10 ∨ b = 13 ∨ b = 11 ∨ b = 12

/-- Go `strings.TrimSpace`. -/
def trimSpace (s : List Nat) : List Nat :=
  ((s.dropWhile isSpaceByte).reverse.dropWhile isSpaceByte).reverse

/-- Index just after the first newline of `s`, if any (the
`strings.SplitN(s, "\n", 2)` step of `stripCodeFences`). -/
def afterFirstNL (s : List Nat) : Option (List Nat) :=
  match s.findIdx? (fun b => b = 10) with
  | none => none
  | some i => some (s.drop (i + 1))

/-- Go `strings.LastIndex(s, sub)`: position of the last occurrence. -/
def lastIndexOf (s sub : List Nat) : Option Nat :=
  ((List.range (s.length + 1)).filter (fun i => sub.isPrefixOf (s.drop i))).getLast?

/-- The `stripCodeFences` (toolsim.go): if the content starts with triple
backquotes, drop the first line, then cut at the last triple backquote. -/
def stripCodeFences (s : List Nat) : List Nat :=
  if (asciiBytes "```").isPrefixOf s then
    let s2 := match afterFirstNL s with
      | some rest => rest
      | none => s
    match lastIndexOf s2 (asciiBytes "```") with
    | some idx => s2.take idx
    | none => s2
  else s

/-- Go `json.Unmarshal` of one array element into the anonymous
`struct{Name string; Arguments json.RawMessage}` (toolsim.go): the element
must be an object (or `null`, leaving the zero struct); a present `name`
must be a string (or `null`).  Returns `(name, raw argument text)`, where
the raw text of an absent `arguments` is `""` and of JSON `null` is
`"null"`, exactly what the Go code compares against; other values render
through `jprint`. -/
def parseCallElem (jprint : Json → List Nat) : Json → Option (List Nat × List Nat)
  | Json.obj fields =>
    let nameOpt : Option (List Nat) :=
      match jlookup (asciiBytes "name") fields with
      | none => some []
      | some (Json.str s) => some s
      | some Json.null => some []
      | some _ => none
    match nameOpt with
    | none => none
    | some nm =>
      let args : List Nat :=
        match jlookup (asciiBytes "arguments") fields with
        | none => []
        | some Json.null => asciiBytes "null"
        | some v => jprint v
      some (nm, args)
  | Json.null => some ([], [])
  | _ => none

/-- The filter-and-coerce loop applied to a parsed call list: keep declared
names only; coerce `""`/`"null"` arguments to `"{}"`. -/
def filterCalls (tools : List ToolDef) (calls : List (List Nat × List Nat)) : List PTC :=
  calls.foldl (fun acc c =>
    if (tools.map ToolDef.name).contains c.1 then
      let args := if c.2 = [] ∨ c.2 = asciiBytes "null" then asciiBytes "\x7b\x7d" else c.2
      acc ++ [⟨c.1, args⟩]
    else acc) []

/-- The `extractToolCalls` (toolsim.go): trim, strip fences, then try
(a) JSON array, (b) the substring from the first `[` to the last `]`,
(c) a single object. -/
def extractToolCalls (jparse : List Nat → Option Json) (jprint : Json → List Nat)
    (content : List Nat) (tools : List ToolDef) : List PTC :=
  let c1 := trimSpace content
  let c2 := trimSpace (stripCodeFences c1)
  -- (a) parse as a JSON array of tool calls
  let attemptA : Option (List PTC) :=
    match jparse c2 with
    | some (Json.arr elems) =>
      match elems.mapM (parseCallElem jprint) with
      | some calls =>
        if calls ≠ [] then
          let result := filterCalls tools calls
          if result ≠ [] then some result else none
        else none
      | none => none
    | _ => none
  match attemptA with
  | some result => result
  | none =>
    -- (b) JSON array embedded in the text
    let istart := c2.findIdx? (fun b => b = 91)
    let iend := lastIndexOf c2 [93]
    let attemptB : Option (List PTC) :=
      match istart, iend with
      | some s, some e =>
        if e > s then
          match jparse ((c2.take (e + 1)).drop s) with
          | some (Json.arr elems) =>
            match elems.mapM (parseCallElem jprint) with
            | some calls =>
              if calls ≠ [] then some (filterCalls tools calls) else none
            | none => none
          | _ => none
        else none
      | _, _ => none
    match attemptB with
    | some result => result
    | none =>
      -- (c) single object
      match jparse c2 with
      | some (Json.obj fields) =>
        match parseCallElem jprint (Json.obj fields) with
        | some (nm, args) =>
          if nm ≠ [] ∧ (tools.map ToolDef.name).contains nm then
            [⟨nm, if args = [] ∨ args = asciiBytes "null" then asciiBytes "\x7b\x7d" else args⟩]
          else []
        | none => []
      | _ => []

/-- Outcome of `ParseResponse`: the original body unchanged, a rewritten
response object (bytes come from `jprint`), or a runtime panic. -/
inductive PRes where
  | unchanged
  | rewritten (j : Json)
  | panicked

def keyChoices : List Nat := asciiBytes "choices"

def keyMessage : List Nat := asciiBytes "message"

/-- The `ParseResponse` (toolsim.go), translated branch by branch.  `ids i` is
the opaque id generated for the `i`-th emitted call (`generateToolCallID`
reads `crypto/rand`; the ids are an oracle).  Note the `choices[0]` read:
when the response object has no `choices` key, the Go slice stays nil, the
`len(choices) == 0` guard inside the `ok` branch is skipped, and
`choices[0]` panics with an index-out-of-range runtime error. -/
def ParseResponse (jparse : List Nat → Option Json) (jprint : Json → List Nat)
    (ids : Nat → List Nat) (respBody : List Nat) (tools : List ToolDef) : PRes :=
  match jparse respBody with
  | none => PRes.unchanged
  | some j =>
    match getObjFields j with
    | none => PRes.unchanged
    | some resp =>
      match jlookup keyChoices resp with
      | none => PRes.panicked   -- choices stays nil; choices[0] is out of range
      | some c =>
        match asObjArray c with
        | none => PRes.unchanged
        | some choices =>
          match choices with
          | [] => PRes.unchanged
          | choice0 :: choicesTail =>
            let msgOpt : Option (List (List Nat × Json)) :=
              match jlookup keyMessage choice0 with
              | none => some []   -- msg stays the nil map; reads yield zero values
              | some m => getObjFields m
            match msgOpt with
            | none => PRes.unchanged
            | some msgF =>
              let contentOpt : Option (List Nat) :=
                match jlookup keyContent msgF with
                | none => some []   -- content stays ""
                | some cv => asGoString cv
              match contentOpt with
              | none => PRes.unchanged
              | some content =>
                let toolCalls := extractToolCalls jparse jprint content tools
                if toolCalls = [] then PRes.unchanged
                else
                  let toolCallMsgs := (List.range toolCalls.length).map (fun i =>
                    let tc := toolCalls.getD i ⟨[], []⟩
                    Json.obj [(asciiBytes "id", Json.str (asciiBytes "call_" ++ ids i)),
                              (asciiBytes "type", Json.str (asciiBytes "function")),
                              (asciiBytes "function", Json.obj
                                [(asciiBytes "name", Json.str tc.name),
                                 (asciiBytes "arguments", Json.str tc.args)])])
                  let msg2 := jset (asciiBytes "tool_calls") (Json.arr toolCallMsgs)
                    (jset keyContent Json.null
                      (jset keyRole (Json.str (asciiBytes "assistant")) msgF))
                  let choice1 := jset (asciiBytes "finish_reason")
                    (Json.str (asciiBytes "tool_calls"))
                    (jset keyMessage (Json.obj msg2) choice0)
                  let resp2 := jset keyChoices
                    (Json.arr ((choice1 :: choicesTail).map Json.obj)) resp
                  PRes.rewritten (Json.obj resp2)

/-! ## Upstream client retry loop (`internal/upstream/client.go`) -/

/-- The `Endpoint` (client.go): URL and transfer-agent address, as byte
strings. -/
structure UEndpoint where
  url : List Nat
  address : List Nat
deriving DecidableEq, Repr

/-- The `pickEndpointExcluding` (client.go).  `rnd` models the `rand.Intn`
draw: an arbitrary natural, reduced modulo the candidate count (every value
`rand.Intn(n)` can return arises this way).  When every endpoint is
excluded, the code falls back to a random endpoint from the full list. -/
def pickEndpointExcluding (eps : List UEndpoint) (exclude : List (List Nat))
    (rnd : Nat) : Option UEndpoint :=
  if eps = [] then none
  else
    let candidates := eps.filter (fun ep => decide (ep.address ∉ exclude))
    if candidates = [] then some (eps.getD (rnd % eps.length) ⟨[], []⟩)
    else some (candidates.getD (rnd % candidates.length) ⟨[], []⟩)

/-- Trace and result of one `Client.Do` call: the endpoints attempted with
each attempt's outcome (transport error or HTTP response), and the returned
(body, status) when an HTTP response arrived. -/
structure DoRun where
  trace : List (UEndpoint × Except Unit (Nat × List Nat))
  result : Option (List Nat × Nat)
deriving Repr

/-- The attempt loop of `Client.Do` (client.go): `remaining` counts down
from 3, `attempt` is the loop index, `tried` the addresses already tried.
`net attempt ep` is the transport oracle: `.error` for a transport-level
failure, `.ok (status, body)` for any HTTP response.  On response the loop
returns immediately; on transport error it records the endpoint and
retries. -/
def clientDoAux (eps : List UEndpoint)
    (net : Nat → UEndpoint → Except Unit (Nat × List Nat)) (rnd : Nat → Nat) :
    Nat → Nat → List (List Nat) → DoRun
  | 0, _, _ => ⟨[], none⟩
  | r + 1, attempt, tried =>
    match pickEndpointExcluding eps tried (rnd attempt) with
    | none => ⟨[], none⟩
    | some ep =>
      match net attempt ep with
      | Except.error e =>
        let rest := clientDoAux eps net rnd r (attempt + 1) (tried ++ [ep.address])
        ⟨(ep, Except.error e) :: rest.trace, rest.result⟩
      | Except.ok (st, b) => ⟨[(ep, Except.ok (st, b))], some (b, st)⟩

/-- The `Client.Do` (client.go): up to 3 attempts. -/
def clientDo (eps : List UEndpoint)
    (net : Nat → UEndpoint → Except Unit (Nat × List Nat)) (rnd : Nat → Nat) : DoRun :=
  clientDoAux eps net rnd 3 0 []

/-! ## Deterministic ECDSA signing (`internal/signer/signer.go`)

The signer calls Go's `crypto/sha256`, `crypto/hmac`, `math/big` and the
go-ethereum secp256k1 curve.  These standard primitives are implemented
here concretely (SHA-256 and HMAC bit for bit; the curve by its
mathematical definition, which is what `curve.ScalarBaseMult` computes;
`big.Int.ModInverse` by the Fermat inverse, which coincides with it for the
prime moduli used).  Everything in `signer.go` itself is translated
line by line on top of them.  `time.Now().UnixNano()` is the explicit
`ts` parameter. -/

/-- 32-bit right rotation. -/
def rotr32 (x n : Nat) : Nat := ((x >>> n) ||| (x <<< (32 - n))) % 4294967296

/-- SHA-256 round constants. -/
def sha256K : List Nat :=
  [1116352408, 1899447441, 3049323471, 3921009573, 961987163, 1508970993,
   2453635748, 2870763221, 3624381080, 310598401, 607225278, 1426881987,
   1925078388, 2162078206, 2614888103, 3248222580, 3835390401, 4022224774,
   264347078, 604807628, 770255983, 1249150122, 1555081692, 1996064986,
   2554220882, 2821834349, 2952996808, 3210313671, 3336571891, 3584528711,
   113926993, 338241895, 666307205, 773529912, 1294757372, 1396182291,
   1695183700, 1986661051, 2177026350, 2456956037, 2730485921, 2820302411,
   3259730800, 3345764771, 3516065817, 3600352804, 4094571909, 275423344,
   430227734, 506948616, 659060556, 883997877, 958139571, 1322822218,
   1537002063, 1747873779, 1955562222, 2024104815, 2227730452, 2361852424,
   2428436474, 2756734187, 3204031479, 3329325298]

/-- SHA-256 initial hash state. -/
def sha256Init : List Nat :=
  [1779033703, 3144134277, 1013904242, 2773480762,
   1359893119, 2600822924, 528734635, 1541459225]

/-- SHA-256 message padding: `0x80`, zeros to 56 mod 64, 64-bit big-endian
bit length. -/
def sha256pad (msg : List Nat) : List Nat :=
  let len := msg.length
  let z := (119 - len % 64) % 64
  msg ++ [128] ++ List.replicate z 0 ++
    (List.range 8).map (fun i => 8 * len / 2 ^ (8 * (7 - i)) % 256)

/-- Split into 64-byte blocks (fueled; fuel `len + 1` suffices). -/
def chunk64 : Nat → List Nat → List (List Nat)
  | 0, _ => []
  | fuel + 1, l => if l = [] then [] else l.take 64 :: chunk64 fuel (l.drop 64)

/-- The 16 initial 32-bit words of a block. -/
def wordsOfBlock (b : List Nat) : List Nat :=
  (List.range 16).map (fun i =>
    b.getD (4 * i) 0 * 16777216 + b.getD (4 * i + 1) 0 * 65536 +
    b.getD (4 * i + 2) 0 * 256 + b.getD (4 * i + 3) 0)

/-- Extend the message schedule by `n` words. -/
def scheduleExtend (w : List Nat) : Nat → List Nat
  | 0 => w
  | n + 1 =>
    let w2 := scheduleExtend w n
    let i := w2.length
    let x15 := w2.getD (i - 15) 0
    let x2 := w2.getD (i - 2) 0
    let s0 := rotr32 x15 7 ^^^ rotr32 x15 18 ^^^ (x15 >>> 3)
    let s1 := rotr32 x2 17 ^^^ rotr32 x2 19 ^^^ (x2 >>> 10)
    w2 ++ [(w2.getD (i - 16) 0 + s0 + w2.getD (i - 7) 0 + s1) % 4294967296]

/-- The 64 compression rounds on state `[a,b,c,d,e,f,g,h]`. -/
def sha256Rounds (w : List Nat) (st : List Nat) : List Nat :=
  (List.range 64).foldl (fun s i =>
    match s with
    | [a, b, c, d, e, f, g, h] =>
      let s1 := rotr32 e 6 ^^^ rotr32 e 11 ^^^ rotr32 e 25
      let ch := (e &&& f) ^^^ ((4294967295 - e) &&& g)
      let t1 := (h + s1 + ch + sha256K.getD i 0 + w.getD i 0) % 4294967296
      let s0 := rotr32 a 2 ^^^ rotr32 a 13 ^^^ rotr32 a 22
      let mj := (a &&& b) ^^^ (a &&& c) ^^^ (b &&& c)
      let t2 := (s0 + mj) % 4294967296
      [(t1 + t2) % 4294967296, a, b, c, (d + t1) % 4294967296, e, f, g]
    | other => other) st

/-- SHA-256 of a byte string (32-byte digest). -/
def sha256 (msg : List Nat) : List Nat :=
  let blocks := chunk64 (msg.length + 73) (sha256pad msg)
  let hFinal := blocks.foldl (fun hst b =>
    let w := scheduleExtend (wordsOfBlock b) 48
    List.zipWith (fun x y => (x + y) % 4294967296) hst (sha256Rounds w hst))
    sha256Init
  (hFinal.map (fun wd => [wd / 16777216 % 256, wd / 65536 % 256,
    wd / 256 % 256, wd % 256])).flatten

/-- HMAC-SHA-256 (block size 64). -/
def hmacSha256 (key msg : List Nat) : List Nat :=
  let k0 := if key.length > 64 then sha256 key else key
  let kpad := k0 ++ List.replicate (64 - k0.length) 0
  sha256 ((kpad.map (· ^^^ 92)) ++ sha256 ((kpad.map (· ^^^ 54)) ++ msg))

/-- secp256k1 field prime. -/
def secpP : Nat :=
  0xFFFFFFFFFFFFFFFFFFFFFFFFFFFFFFFFFFFFFFFFFFFFFFFFFFFFFFFEFFFFFC2F

/-- secp256k1 group order `n`. -/
def secpN : Nat :=
  0xFFFFFFFFFFFFFFFFFFFFFFFFFFFFFFFEBAAEDCE6AF48A03BBFD25E8CD0364141

/-- secp256k1 base point. -/
def secpGx : Nat :=
  0x79BE667EF9DCBBAC55A06295CE870B07029BFCDB2DCE28D959F2815B16F81798

def secpGy : Nat :=
  0x483ADA7726A3C4655DA4FBFC0E1108A8FD17B448A68554199C47D08FFB10D4B8

/-- Fast modular exponentiation. -/
def powMod (b : Nat) (e m : Nat) : Nat :=
  if h : e = 0 then 1 % m
  else
    let hh := powMod (b * b % m) (e / 2) m
    if e % 2 = 1 then hh * b % m else hh
  decreasing_by exact Nat.div_lt_self (by omega) (by omega)

/-- The `big.Int.ModInverse` for the prime moduli used here (Fermat inverse). -/
def modInverse (a m : Nat) : Nat := powMod a (m - 2) m

/-- The `(a - b) mod p` on naturals with `b` reduced first. -/
def subMod (a b p : Nat) : Nat := (a + (p - b % p)) % p

/-- Affine secp256k1 point addition (`none` is the point at infinity). -/
def ecAdd : Option (Nat × Nat) → Option (Nat × Nat) → Option (Nat × Nat)
  | none, q => q
  | p, none => p
  | some (x1, y1), some (x2, y2) =>
    if x1 % secpP = x2 % secpP then
      if (y1 + y2) % secpP = 0 then none
      else
        let lam := 3 * x1 * x1 % secpP * modInverse (2 * y1 % secpP) secpP % secpP
        let x3 := subMod (lam * lam) (2 * x1) secpP
        some (x3, subMod (lam * (subMod x1 x3 secpP)) y1 secpP)
    else
      let lam := subMod y2 y1 secpP * modInverse (subMod x2 x1 secpP) secpP % secpP
      let x3 := subMod (lam * lam) (x1 + x2) secpP
      some (x3, subMod (lam * (subMod x1 x3 secpP)) y1 secpP)

/-- Scalar multiplication by double-and-add. -/
def ecMul (k : Nat) (p : Option (Nat × Nat)) : Option (Nat × Nat) :=
  if h : k = 0 then none
  else
    let half := ecMul (k / 2) (ecAdd p p)
    if k % 2 = 1 then ecAdd p half else half
  decreasing_by exact Nat.div_lt_self (by omega) (by omega)

/-- The `curve.ScalarBaseMult(k)`: `k·G` on secp256k1. -/
def scalarBaseMult (k : Nat) : Option (Nat × Nat) := ecMul k (some (secpGx, secpGy))

/-- Go returns `(0, 0)` for the point at infinity. -/
def pointX : Option (Nat × Nat) → Nat
  | none => 0
  | some (x, _) => x

/-- Fueled helper for `natToBytesBE`. -/
def natBytesAux : Nat → Nat → List Nat
  | 0, _ => []
  | fuel + 1, n => if n = 0 then [] else natBytesAux fuel (n / 256) ++ [n % 256]

/-- The `big.Int.Bytes()`: minimal big-endian bytes (empty for 0). -/
def natToBytesBE (n : Nat) : List Nat := natBytesAux (n + 1) n

/-- The `big.Int.SetBytes`: big-endian bytes to a natural. -/
def bytesToNat (b : List Nat) : Nat := b.foldl (fun acc x => acc * 256 + x) 0

/-- The `BitLen` of a natural. -/
def bitLen (n : Nat) : Nat := if n = 0 then 0 else Nat.log2 n + 1

/-- The `int2octets` (signer.go). -/
def int2octets (v : Nat) (qlen : Nat) : List Nat :=
  let rlen := (qlen + 7) / 8
  let out := natToBytesBE v
  let out2 := if out.length < rlen then List.replicate (rlen - out.length) 0 ++ out else out
  if out2.length > rlen then out2.drop (out2.length - rlen) else out2

/-- The `bits2int` (signer.go). -/
def bits2int (b : List Nat) (qlen : Nat) : Nat :=
  let v := bytesToNat b
  if 8 * b.length > qlen then v >>> (8 * b.length - qlen) else v

/-- The `bits2octets` (signer.go): `z1 - q` unless negative. -/
def bits2octets (b : List Nat) (q : Nat) (qlen : Nat) : List Nat :=
  let z1 := bits2int b qlen
  int2octets (if z1 < q then z1 else z1 - q) qlen

/-- Inner loop of RFC 6979 step h: extend `t` with V-updates until
`len(t)*8 ≥ qlen` (fueled; each pass adds 32 bytes, so `qlen/8+1` passes
always suffice). -/
def genTLoop (kk : List Nat) (qlen : Nat) : Nat → List Nat → List Nat → List Nat × List Nat
  | 0, v, t => (t, v)
  | fuel + 1, v, t =>
    if 8 * t.length < qlen then
      let v2 := hmacSha256 kk v
      genTLoop kk qlen fuel v2 (t ++ v2)
    else (t, v)

/-- Retry loop of RFC 6979 step h (`for {}` in signer.go): regenerate until
`0 < k < N`.  Fueled; with HMAC-SHA-256 output the first candidate is
almost surely valid, and the fallback after fuel exhaustion (never reached
in any run this file reasons about) is the scalar 1. -/
def genKLoop (qlen : Nat) : Nat → List Nat → List Nat → Nat
  | 0, _, _ => 1
  | fuel + 1, kk, v =>
    let tv := genTLoop kk qlen (qlen / 8 + 1) v []
    let secret := bits2int tv.1 qlen
    if 0 < secret ∧ secret < secpN then secret
    else
      let kk2 := hmacSha256 kk (tv.2 ++ [0])
      let v3 := hmacSha256 kk2 tv.2
      genKLoop qlen fuel kk2 v3

/-- The `generateRFC6979K` (signer.go). -/
def generateRFC6979K (d : Nat) (hash : List Nat) : Nat :=
  let qlen := bitLen secpN
  let bx := int2octets d qlen
  let bh := bits2octets hash secpN qlen
  let v0 := List.replicate 32 1
  let k0 := List.replicate 32 0
  let k1 := hmacSha256 k0 (v0 ++ [0] ++ bx ++ bh)
  let v1 := hmacSha256 k1 v0
  let k2 := hmacSha256 k1 (v1 ++ [1] ++ bx ++ bh)
  let v2 := hmacSha256 k2 v1
  genKLoop qlen 1000 k2 v2

/-- The `rfc6979Sign` (signer.go): `r = (k·G).x mod n`,
`s = k⁻¹(hash + r·d) mod n`. -/
def rfc6979Sign (d : Nat) (hash : List Nat) : Nat × Nat :=
  let k := generateRFC6979K d hash
  let r := pointX (scalarBaseMult k) % secpN
  let kInv := modInverse k secpN
  let e := bytesToNat hash
  (r, (r * d + e) * kInv % secpN)

/-- Lower-case hex encoding (`hex.EncodeToString`). -/
def hexLower (bytes : List Nat) : List Nat :=
  (bytes.map (fun b =>
    [(if b / 16 < 10 then 48 + b / 16 else 87 + b / 16),
     (if b % 16 < 10 then 48 + b % 16 else 87 + b % 16)])).flatten

/-- The `copy(dst[pos:], src)` when `pos + len(src) ≤ len(dst)`. -/
def overwriteAt (dst : List Nat) (pos : Nat) (src : List Nat) : List Nat :=
  dst.take pos ++ src ++ dst.drop (pos + src.length)

/-- The 64-byte `r‖s` buffer assembly of `Signer.Sign` (signer.go):
`out := make([]byte, 64)`, then the two zero-padding copies. -/
def signEncode (r s : Nat) : List Nat :=
  overwriteAt
    (overwriteAt (List.replicate 64 0) (32 - (natToBytesBE r).length) (natToBytesBE r))
    (64 - (natToBytesBE s).length) (natToBytesBE s)

/-- Base64 character table (standard alphabet). -/
def b64Char (n : Nat) : Nat :=
  if n < 26 then 65 + n
  else if n < 52 then 97 + (n - 26)
  else if n < 62 then 48 + (n - 52)
  else if n = 62 then 43 else 47

/-- Standard base64 with `=` padding (fueled on triples). -/
def b64Aux : Nat → List Nat → List Nat
  | 0, _ => []
  | _ + 1, [] => []
  | _ + 1, [a] => [b64Char (a / 4), b64Char (a % 4 * 16), 61, 61]
  | _ + 1, [a, b] => [b64Char (a / 4), b64Char (a % 4 * 16 + b / 16), b64Char (b % 16 * 4), 61]
  | fuel + 1, a :: b :: c :: rest =>
    [b64Char (a / 4), b64Char (a % 4 * 16 + b / 16), b64Char (b % 16 * 4 + c / 64),
     b64Char (c % 64)] ++ b64Aux fuel rest

def base64Encode (l : List Nat) : List Nat := b64Aux (l.length + 1) l

/-- The `(r, s)` pair emitted by `Signer.Sign` (signer.go) after the low-S
normalisation, for private scalar `d`, payload, transfer address, and
timestamp `ts` (nanoseconds; `time.Now().UnixNano()` made explicit). -/
def signRS (d : Nat) (payload transferAddress : List Nat) (ts : Nat) : Nat × Nat :=
  let payloadHex := hexLower (sha256 payload)
  let sigInput := payloadHex ++ natDigits ts ++ transferAddress
  let msgHash := sha256 sigInput
  let rs := rfc6979Sign d msgHash
  let halfOrder := secpN >>> 1
  (rs.1, if rs.2 > halfOrder then secpN - rs.2 else rs.2)

/-- The `Signer.Sign` (signer.go): the base64 signature string. -/
def signerSign (d : Nat) (payload transferAddress : List Nat) (ts : Nat) : List Nat :=
  let rs := signRS d payload transferAddress ts
  base64Encode (signEncode rs.1 rs.2)

/-! ## Process-wide token uniqueness model (C6)

`globalCounter` (sanitize.go) is process-wide; `TokenMap`s are per-request.
A process run is a sequence of operations: create a request's map, or
register an original into an existing map.  All maps share the counter. -/

inductive GOp where
  | newMap
  | reg (idx : Nat) (original : List Nat)

structure GState where
  maps : List TokenMap
  counter : Nat

def gstep (st : GState) : GOp → GState
  | GOp.newMap => ⟨st.maps ++ [TokenMap.empty], st.counter⟩
  | GOp.reg i orig =>
    if i < st.maps.length then
      let r := registerTok (st.maps.getD i TokenMap.empty) st.counter orig
      ⟨st.maps.set i r.2.1, r.2.2⟩
    else st

/-- Run a process trace from the initial state (no maps, counter 0 — the
zero value of `globalCounter`). -/
def runOps (ops : List GOp) : GState := ops.foldl gstep ⟨[], 0⟩

/-- All placeholder tokens ever produced and still recorded, across every
request's map (`fromToken` keys). -/
def allTokens (st : GState) : List (List Nat) :=
  (st.maps.map (fun tm => tm.fromToken.map Prod.fst)).flatten

/-- The placeholder shape claim C6 asserts: `«TOKEN_` + exactly six decimal
digits + `»`. -/
def sixDigitTokenShape (tok : List Nat) : Prop :=
  ∃ ds : List Nat, ds.length = 6 ∧ (∀ d ∈ ds, 48 ≤ d ∧ d ≤ 57) ∧
    tok = guillOpen ++ asciiBytes "TOKEN_" ++ ds ++ guillClose

/-- The corrected shape: `«TOKEN_` + the id zero-padded to at least six
decimal digits + `»`. -/
def paddedTokenShape (tok : List Nat) : Prop :=
  ∃ id : Nat, 1 ≤ id ∧ tok = tokenFor id ∧ 6 ≤ (padZeros 6 (natDigits id)).length

/-- Distinct originals for the reachability run: `i` repetitions of `a`. -/
def repOrig (i : Nat) : List Nat := List.replicate i 97

/-- A process trace that creates one map and registers `n` distinct
originals into it. -/
def opsN (n : Nat) : List GOp :=
  GOp.newMap :: (List.range n).map (fun i => GOp.reg 0 (repOrig i))

/-- Folding plain registrations over one map (used to reason about
`opsN`). -/
def regFold (origs : List (List Nat)) (tm : TokenMap) (c : Nat) : TokenMap × Nat :=
  origs.foldl (fun p o =>
    let r := registerTok p.1 p.2 o
    (r.2.1, r.2.2)) (tm, c)

/-! ## Concrete oracles and inputs used by the claim theorems -/

set_option maxRecDepth 8000

/-- Classifier oracle for the C3 demonstration: the NER layer reports the
whole of `"bob"` as a `PER` span. -/
def classEx : CTag → List Nat → List Span := fun c text =>
  if c = CTag.ner ∧ text = asciiBytes "bob" then [⟨0, 3, asciiBytes "PER"⟩] else []

/-- Endpoint list with a single endpoint of address `"a"`. -/
def epsEx : List UEndpoint := [⟨[], [97]⟩]

/-- Transport oracle that always fails (every attempt gets a
transport-level error, e.g. TCP refused). -/
def netFail : Nat → UEndpoint → Except Unit (Nat × List Nat) := fun _ _ => Except.error ()

def rndZero : Nat → Nat := fun _ => 0

/-- The process-wide invariant behind C6: every recorded token is
`tokenFor id` for a positive id at most the counter, and all recorded
tokens are pairwise distinct. -/
def TokInv (st : GState) : Prop :=
  (∀ tok ∈ allTokens st, ∃ id, 1 ≤ id ∧ id ≤ st.counter ∧ tok = tokenFor id) ∧
  (allTokens st).Nodup

/-- Zero-byte left padding to width `w` (the `copy(out[32-len:...])`
layout in `Signer.Sign`). -/
def padBytes (w : Nat) (b : List Nat) : List Nat :=
  List.replicate (w - b.length) 0 ++ b

/-- Default trace entry (for `getD`). -/
def dfltEntry : UEndpoint × Except Unit (Nat × List Nat) := (⟨[], []⟩, Except.error ())

/-- Two endpoints for the C8 witness run. -/
def epsEx2 : List UEndpoint := [⟨[], [97]⟩, ⟨[], [98]⟩]

/-- Transport oracle for the C8 witness run: the first attempt hits a
transport error, the second gets an HTTP 500 response with body `"h"`. -/
def netEx : Nat → UEndpoint → Except Unit (Nat × List Nat) :=
  fun attempt _ => if attempt = 0 then Except.error () else Except.ok (500, [104])

/-! ## Lemmas and claim theorems -/

theorem natDigitsAux_fuel (n : Nat) : ∀ (fuel : Nat), n < fuel → natDigitsAux fuel n = natDigits n := by
  induction n using Nat.strong_induction_on with
  | _ n ih =>
    intro fuel hf
    match fuel with
    | f + 1 =>
      rw [natDigits]
      rw [natDigitsAux, natDigitsAux]
      by_cases h : n < 10
      · simp [h]
      · rw [if_neg h, if_neg h]
        have hd : n / 10 < n := Nat.div_lt_self (by omega) (by omega)
        rw [ih (n / 10) hd f (by omega), ih (n / 10) hd n (by omega)]

/-- The defining recurrence of `natDigits`. -/
theorem natDigits_eq (n : Nat) :
    natDigits n = if n < 10 then [48 + n] else natDigits (n / 10) ++ [48 + n % 10] := by
  rw [natDigits, natDigitsAux]
  by_cases h : n < 10
  · simp [h]
  · rw [if_neg h, if_neg h, natDigitsAux_fuel (n / 10) n (Nat.div_lt_self (by omega) (by omega))]

theorem parseDigits_append (xs ys : List Nat) :
    parseDigits (xs ++ ys) = ys.foldl (fun acc d => acc * 10 + (d - 48)) (parseDigits xs) := by
  simp [parseDigits, List.foldl_append]

theorem parseDigits_natDigits (n : Nat) : parseDigits (natDigits n) = n := by
  induction n using Nat.strong_induction_on with
  | _ n ih =>
    rw [natDigits_eq]
    by_cases h : n < 10
    · simp [h, parseDigits]
    · rw [if_neg h, parseDigits_append, ih (n / 10) (Nat.div_lt_self (by omega) (by omega))]
      simp only [List.foldl_cons, List.foldl_nil]
      omega

theorem parseDigits_padZeros (w : Nat) (ds : List Nat) :
    parseDigits (padZeros w ds) = parseDigits ds := by
  have hz : ∀ k, parseDigits (List.replicate k 48) = 0 := by
    intro k
    induction k with
    | zero => rfl
    | succ k ihk =>
      simp only [parseDigits, List.replicate_succ, List.foldl_cons] at *
      simpa using ihk
  rw [padZeros, parseDigits_append, hz]
  rfl

theorem natDigits_injective : Function.Injective natDigits := by
  intro a b h
  have := parseDigits_natDigits a
  rw [h, parseDigits_natDigits] at this
  omega

theorem padZeros_natDigits_injective (w : Nat) :
    Function.Injective (fun n => padZeros w (natDigits n)) := by
  intro a b h
  simp only at h
  have h2 : parseDigits (padZeros w (natDigits a)) = parseDigits (padZeros w (natDigits b)) := by
    rw [h]
  rw [parseDigits_padZeros, parseDigits_padZeros,
    parseDigits_natDigits, parseDigits_natDigits] at h2
  exact h2

theorem tokenFor_injective : Function.Injective tokenFor := by
  intro a b h
  unfold tokenFor at h
  have h1 := List.append_cancel_right h
  have h2 := List.append_cancel_left h1
  exact padZeros_natDigits_injective 6 h2

/-- Length of the decimal rendering: `natDigits n` has exactly six digits
iff `n < 10⁶` ... lower bound part: any `n ≥ 10⁶` renders with ≥ 7 digits. -/
theorem natDigits_length_ge (n k : Nat) (h : 10 ^ k ≤ n) :
    k + 1 ≤ (natDigits n).length := by
  induction k generalizing n with
  | zero =>
    rw [natDigits_eq]
    by_cases h10 : n < 10 <;> simp [h10]
  | succ k ih =>
    rw [natDigits_eq]
    have hn : ¬ n < 10 := by
      have : 10 ^ (k + 1) ≥ 10 := by
        calc 10 = 10 ^ 1 := (pow_one 10).symm
        _ ≤ 10 ^ (k + 1) := Nat.pow_le_pow_right (by omega) (by omega)
      omega
    rw [if_neg hn]
    simp only [List.length_append, List.length_cons, List.length_nil]
    have hdiv : 10 ^ k ≤ n / 10 := by
      rw [Nat.le_div_iff_mul_le (by omega)]
      calc 10 ^ k * 10 = 10 ^ (k + 1) := by ring
      _ ≤ n := h
    have := ih (n / 10) hdiv
    omega

theorem spanKeepSpec_eq_true_iff (text : List Nat) (sp : Span) :
    spanKeepSpec text sp = true ↔
      ¬ (sp.start < 0 ∨ sp.stop > (text.length : Int) ∨ sp.start ≥ sp.stop) ∧
      (isRuneBoundary text sp.start.toNat = true ∧ isRuneBoundary text sp.stop.toNat = true) ∧
      ¬ containsTokenPlaceholder (goSlice text sp.start sp.stop) = true ∧
      ¬ (sp.start > 0 ∧ ¬ isWordBoundaryByte (text.getD (sp.start.toNat - 1) 0) = true) ∧
      ¬ (sp.stop < (text.length : Int) ∧ ¬ isWordBoundaryByte (text.getD sp.stop.toNat 0) = true) := by
  simp only [spanKeepSpec, decide_eq_true_eq]
  constructor
  · rintro ⟨h1, h2, h3, h4, h5, h6, h7, h8⟩
    refine ⟨by omega, ⟨h4, h5⟩, h6, ?_, ?_⟩
    · rintro ⟨hgt, hnw⟩; exact hnw (h7 hgt)
    · rintro ⟨hlt, hnw⟩; exact hnw (h8 hlt)
  · rintro ⟨h1, ⟨h4, h5⟩, h6, h7, h8⟩
    push_neg at h1 h7 h8
    exact ⟨by omega, by omega, by omega, h4, h5, h6, h7, h8⟩

theorem validSpans_eq_filter (text : List Nat) (spans : List Span) :
    validSpans text spans = spans.filter (spanKeepSpec text) := by
  induction spans with
  | nil => rfl
  | cons sp rest ih =>
    rw [validSpans, List.filter_cons, ih]
    by_cases hk : spanKeepSpec text sp = true
    · obtain ⟨h1, h2, h3, h4, h5⟩ := (spanKeepSpec_eq_true_iff text sp).mp hk
      rw [if_neg h1, if_neg (not_not_intro h2), if_neg h3, if_neg h4, if_neg h5, if_pos hk]
    · rw [if_neg hk]
      have h := hk
      rw [spanKeepSpec_eq_true_iff] at h
      by_cases c1 : sp.start < 0 ∨ sp.stop > (text.length : Int) ∨ sp.start ≥ sp.stop
      · rw [if_pos c1]
      · rw [if_neg c1]
        by_cases c2 : isRuneBoundary text sp.start.toNat = true ∧ isRuneBoundary text sp.stop.toNat = true
        · rw [if_neg (not_not_intro c2)]
          by_cases c3 : containsTokenPlaceholder (goSlice text sp.start sp.stop) = true
          · rw [if_pos c3]
          · rw [if_neg c3]
            by_cases c4 : sp.start > 0 ∧ ¬ isWordBoundaryByte (text.getD (sp.start.toNat - 1) 0) = true
            · rw [if_pos c4]
            · rw [if_neg c4]
              by_cases c5 : sp.stop < (text.length : Int) ∧ ¬ isWordBoundaryByte (text.getD sp.stop.toNat 0) = true
              · rw [if_pos c5]
              · exact absurd ⟨c1, c2, c3, c4, c5⟩ h
        · rw [if_pos c2]

/-! Supporting lemmas for C5. -/

theorem mem_insertSpanDesc {sp x : Span} {l : List Span} :
    sp ∈ insertSpanDesc x l ↔ sp = x ∨ sp ∈ l := by
  induction l with
  | nil => simp [insertSpanDesc]
  | cons y ys ih =>
    rw [insertSpanDesc]
    by_cases h : x.start > y.start
    · simp [h]
    · simp only [if_neg h, List.mem_cons, ih]
      tauto

theorem mem_sortSpansDesc {sp : Span} {l : List Span} :
    sp ∈ sortSpansDesc l ↔ sp ∈ l := by
  have key : ∀ (l acc : List Span),
      sp ∈ l.foldl (fun acc x => insertSpanDesc x acc) acc ↔ sp ∈ acc ∨ sp ∈ l := by
    intro l
    induction l with
    | nil => simp
    | cons x xs ih =>
      intro acc
      rw [List.foldl_cons, ih, mem_insertSpanDesc]
      simp only [List.mem_cons]
      tauto
  rw [sortSpansDesc, key]
  simp

theorem mem_dedupGo {sp : Span} {ls : Int} {l : List Span} :
    sp ∈ dedupGo ls l → sp ∈ l := by
  induction l generalizing ls with
  | nil => simp [dedupGo]
  | cons x xs ih =>
    rw [dedupGo]
    by_cases h : ls = -1 ∨ x.stop ≤ ls
    · rw [if_pos h]
      intro hm
      rcases List.mem_cons.mp hm with h1 | h2
      · exact List.mem_cons.mpr (Or.inl h1)
      · exact List.mem_cons.mpr (Or.inr (ih h2))
    · rw [if_neg h]
      intro hm
      exact List.mem_cons.mpr (Or.inr (ih hm))

/-- Every span surviving `validSpans` has in-range offsets. -/
theorem validSpans_bounds {text : List Nat} {spans : List Span} {sp : Span}
    (h : sp ∈ validSpans text spans) :
    0 ≤ sp.start ∧ sp.start < sp.stop ∧ sp.stop ≤ (text.length : Int) := by
  rw [validSpans_eq_filter] at h
  have := (List.mem_filter.mp h).2
  rw [spanKeepSpec_eq_true_iff] at this
  obtain ⟨h1, -⟩ := this
  push_neg at h1
  exact ⟨h1.1, h1.2.2, h1.2.1⟩

/-- The kept list of `dedupGo` is chained: each kept span ends at or before
the previously kept span's start (given that all spans have non-negative
starts, so the `-1` sentinel cannot be confused with a real start). -/
theorem dedupGo_chain (l : List Span) (ls : Int)
    (hpos : ∀ sp ∈ l, 0 ≤ sp.start) :
    List.Chain' (fun a b => b.stop ≤ a.start) (dedupGo ls l) ∧
    (∀ hd ∈ (dedupGo ls l).head?, ls = -1 ∨ hd.stop ≤ ls) := by
  induction l generalizing ls with
  | nil => simp [dedupGo]
  | cons sp rest ih =>
    have hpos2 : ∀ s ∈ rest, 0 ≤ s.start := fun s hs => hpos s (List.mem_cons.mpr (Or.inr hs))
    rw [dedupGo]
    by_cases h : ls = -1 ∨ sp.stop ≤ ls
    · rw [if_pos h]
      obtain ⟨ch, hd⟩ := ih sp.start hpos2
      have hsp : (0:Int) ≤ sp.start := hpos sp (List.mem_cons.mpr (Or.inl rfl))
      constructor
      · rw [List.chain'_cons']
        refine ⟨?_, ch⟩
        intro y hy
        rcases hd y hy with h1 | h2
        · omega
        · exact h2
      · intro hd2 hmem
        simp only [List.head?_cons, Option.mem_def, Option.some.injEq] at hmem
        subst hmem
        exact h
    · rw [if_neg h]
      exact ih ls hpos2

/-- In a chained span list whose members all satisfy `start < stop`, every
later span ends at or before the head's start. -/
theorem chain_head_bound {a : Span} {l : List Span}
    (hch : List.Chain' (fun x y => y.stop ≤ x.start) (a :: l))
    (hlt : ∀ sp ∈ l, sp.start < sp.stop) :
    ∀ b ∈ l, b.stop ≤ a.start := by
  induction l generalizing a with
  | nil => simp
  | cons c l2 ih =>
    rw [List.chain'_cons] at hch
    obtain ⟨hac, hch2⟩ := hch
    intro b hb
    rcases List.mem_cons.mp hb with h1 | h2
    · subst h1; exact hac
    · have hc : c.start < c.stop := hlt c (List.mem_cons.mpr (Or.inl rfl))
      have := ih hch2 (fun sp hs => hlt sp (List.mem_cons.mpr (Or.inr hs))) b h2
      omega

/-- A chained span list whose members satisfy `start < stop` is pairwise
ordered (later spans end before earlier spans start). -/
theorem chain_pairwise {l : List Span}
    (hch : List.Chain' (fun x y => y.stop ≤ x.start) l)
    (hlt : ∀ sp ∈ l, sp.start < sp.stop) :
    List.Pairwise (fun x y => y.stop ≤ x.start) l := by
  induction l with
  | nil => exact List.Pairwise.nil
  | cons a l2 ih =>
    rw [List.pairwise_cons]
    constructor
    · exact chain_head_bound hch (fun sp hs => hlt sp (List.mem_cons.mpr (Or.inr hs)))
    · exact ih (List.Chain'.tail hch) (fun sp hs => hlt sp (List.mem_cons.mpr (Or.inr hs)))

/-- Prefix agreement transfers `goSlice` values: two texts agreeing on
their first `k` bytes give the same `goSlice a b` whenever `b ≤ k`. -/
theorem goSlice_of_take_eq {t orig : List Nat} {k : Nat}
    (h : t.take k = orig.take k) {a b : Int} (hb : b.toNat ≤ k) :
    goSlice t a b = goSlice orig a b := by
  unfold goSlice
  have ht : t.take b.toNat = orig.take b.toNat := by
    have h1 : (t.take k).take b.toNat = (orig.take k).take b.toNat := by rw [h]
    rwa [List.take_take, List.take_take, Nat.min_eq_left hb] at h1
  rw [ht]

/-- The matched substrings extracted by the application loop are exactly the
original text's slices, for a chained, in-bounds span list: processing in
descending start order leaves every earlier offset unshifted. -/
theorem applySpans_matched : ∀ (l : List Span) (orig t : List Nat) (tm : TokenMap)
    (c k : Nat),
    t.take k = orig.take k → k ≤ t.length →
    (∀ sp ∈ l, 0 ≤ sp.start ∧ sp.start < sp.stop) →
    (∀ hd ∈ l.head?, hd.stop ≤ (k : Int)) →
    List.Chain' (fun a b => b.stop ≤ a.start) l →
    (applySpans t l tm c).2.2.2 = l.map (fun sp => goSlice orig sp.start sp.stop) := by
  intro l
  induction l with
  | nil => intro orig t tm c k _ _ _ _ _; rfl
  | cons sp rest ih =>
    intro orig t tm c k htake hklen hbnd hhd hch
    have hsp : 0 ≤ sp.start ∧ sp.start < sp.stop :=
      hbnd sp (List.mem_cons.mpr (Or.inl rfl))
    have hstop : sp.stop ≤ (k : Int) := hhd sp (by simp)
    have hstopk : sp.stop.toNat ≤ k := by omega
    have hstartk : sp.start.toNat ≤ k := by omega
    rw [applySpans]
    simp only
    rw [List.map_cons]
    have hmatched : goSlice t sp.start sp.stop = goSlice orig sp.start sp.stop :=
      goSlice_of_take_eq htake hstopk
    rw [hmatched]
    congr 1
    -- the recursive call, with the new prefix bound k' = sp.start.toNat
    set r := registerTok tm c (goSlice orig sp.start sp.stop) with hr
    set text2 := t.take sp.start.toNat ++ r.1 ++ t.drop sp.stop.toNat with htext2
    have hstartlen : sp.start.toNat ≤ t.length := le_trans hstartk hklen
    have htk : (t.take sp.start.toNat).length = sp.start.toNat := by
      simp [List.length_take, Nat.min_eq_left hstartlen]
    have htake2 : text2.take sp.start.toNat = orig.take sp.start.toNat := by
      rw [htext2, List.append_assoc, List.take_append_of_le_length (by omega)]
      have h1 : (t.take k).take sp.start.toNat = (orig.take k).take sp.start.toNat := by
        rw [htake]
      rw [List.take_take, List.take_take, Nat.min_eq_left hstartk] at h1
      rw [List.take_take, Nat.min_self]
      exact h1
    have hklen2 : sp.start.toNat ≤ text2.length := by
      rw [htext2]
      simp only [List.length_append]
      omega
    have hbnd2 : ∀ s ∈ rest, 0 ≤ s.start ∧ s.start < s.stop :=
      fun s hs => hbnd s (List.mem_cons.mpr (Or.inr hs))
    have hhd2 : ∀ hd ∈ rest.head?, hd.stop ≤ ((sp.start.toNat : Nat) : Int) := by
      intro hd hmem
      have : rest ≠ [] := by
        cases rest with
        | nil => simp at hmem
        | cons _ _ => simp
      cases rest with
      | nil => simp at hmem
      | cons y ys =>
        simp only [List.head?_cons, Option.mem_def, Option.some.injEq] at hmem
        subst hmem
        rw [List.chain'_cons] at hch
        have := hch.1
        omega
    exact ih orig text2 r.2.1 r.2.2 sp.start.toNat htake2 hklen2 hbnd2 hhd2
      (List.Chain'.tail hch)

/-- C4: for every text and candidate span list, `validSpans` keeps a span
if and only if: `0 ≤ start < end ≤ len(text)`; both offsets are UTF-8
code-point boundaries; the substring contains no `«TOKEN_<digits>»`
placeholder; and the byte before `start` (when `start > 0`) and the byte at
`end` (when `end < len`) are word-boundary bytes.  (`spanKeepSpec` states
the claim's condition verbatim; validation is order- and
multiplicity-preserving filtering by it.) -/
theorem claim_C4_valid_span_characterization (text : List Nat) (spans : List Span) :
    validSpans text spans = spans.filter (spanKeepSpec text) :=
  validSpans_eq_filter text spans

/-- C1 (falsified; the code contradicts stream.go's own comments): on the
spec's own split-placeholder scenario — upstream frames
`"hello «TOKEN_0000"` then `"01»!"` with `«TOKEN_000001» ↦ "sk-abc123"`
registered — the very first `Read` hands the caller the raw bytes
`"hello «TOKEN_0000"`, which end with a proper prefix of the registered
placeholder whose remainder is still upstream.  The held-back bytes are
drained straight from the internal buffer on the next call without
restoration. -/
theorem claim_C1_partial_placeholder_emitted :
    (rrReadAll tmEx 10 ⟨[chunkA, chunkB], [], false⟩ 100).head? = some chunkA ∧
    (guillOpen ++ asciiBytes "TOKEN_0000").isSuffixOf chunkA = true ∧
    (guillOpen ++ asciiBytes "TOKEN_0000").isPrefixOf (tokenFor 1) = true ∧
    guillOpen ++ asciiBytes "TOKEN_0000" ≠ tokenFor 1 ∧
    (tokenFor 1, asciiBytes "sk-abc123") ∈ tmEx.fromToken := by decide

/-- C2 (falsified; same defect as C1): on the same scenario the
concatenation of all streamed bytes is the raw `"hello «TOKEN_000001»!"`,
not the buffered restoration `"hello sk-abc123!"` — stream parity fails
because buffered bytes are re-emitted without restoration. -/
theorem claim_C2_stream_parity_fails :
    (rrReadAll tmEx 10 ⟨[chunkA, chunkB], [], false⟩ 100).flatten = chunkA ++ chunkB ∧
    RestoreBytes (chunkA ++ chunkB) tmEx = asciiBytes "hello sk-abc123!" ∧
    (rrReadAll tmEx 10 ⟨[chunkA, chunkB], [], false⟩ 100).flatten ≠
      RestoreBytes (chunkA ++ chunkB) tmEx := by decide

/-- C3 (falsified for the NER-only configuration, contradicting
`redactTextWithNER`'s own doc comment "runs all classifiers except the
LLM"): with `SANITIZE_NER=true, SANITIZE_LLM=false` the configured list is
`[ner]`, whose non-LLM part is `[ner]` — but the history path slices
`classifiers[:len-1]` only when `len > 1` and otherwise runs *no*
classifier, so a history message with NER-detectable data is forwarded
unredacted while the last user message is redacted. -/
theorem claim_C3_history_skips_ner_in_ner_only_config :
    buildClassifiers true false = [CTag.ner] ∧
    nonLLMClassifiers (buildClassifiers true false) = [CTag.ner] ∧
    historyClassifiers (buildClassifiers true false) = [] ∧
    redactTextWithNER classEx (buildClassifiers true false) (asciiBytes "bob")
      TokenMap.empty 0 = (asciiBytes "bob", TokenMap.empty, 0) ∧
    (redactText classEx (buildClassifiers true false) (asciiBytes "bob")
      TokenMap.empty 0).1 = tokenFor 1 := by decide

/-- C9 (falsified; the code contradicts `ParseResponse`'s own doc comment
"or the original response if no tool calls were found"): a response body
`{}` — valid JSON, no `choices` key — makes `json.Unmarshal` leave
`choices` nil, skips the guarded length check, and `choices[0]` panics
with an index-out-of-range runtime error instead of returning the body
unchanged.  (`fun _ => some (Json.obj [])` is exactly what `encoding/json`
produces for the body `"{}"` = bytes `[123, 125]`.) -/
theorem claim_C9_parse_response_panics_without_choices :
    ∀ (jprint : Json → List Nat) (ids : Nat → List Nat) (tools : List ToolDef),
      ParseResponse (fun _ => some (Json.obj [])) jprint ids [123, 125] tools
        = PRes.panicked := by
  intro jprint ids tools
  rfl

/-- C10: a body that is not valid JSON (or not a JSON object) is not
returned untouched but run, whole, through the full-pipeline `redactText`;
a body that is a JSON object without a `"messages"` key is returned
unchanged with an empty TokenMap. -/
theorem claim_C10_redact_messages_fallback_paths
    (jparse : List Nat → Option Json) (jprint : Json → List Nat)
    (classify : CTag → List Nat → List Span) (cs : List CTag)
    (body : List Nat) (counter : Nat) :
    (jparse body = none →
      RedactMessages jparse jprint classify cs body counter =
        ((redactText classify cs body TokenMap.empty counter).1,
         (redactText classify cs body TokenMap.empty counter).2.1,
         (redactText classify cs body TokenMap.empty counter).2.2)) ∧
    (∀ fields, jparse body = some (Json.obj fields) →
      jlookup keyMessages fields = none →
      RedactMessages jparse jprint classify cs body counter =
        (body, TokenMap.empty, counter)) := by
  constructor
  · intro h
    simp only [RedactMessages, h]
  · intro fields h hk
    simp only [RedactMessages, h, getObjFields, hk]

/-- Witness for C10 at concrete inputs: an unparseable body takes the
full-pipeline path (here with no classifiers, returning the body with no
registrations), and a parseable body without `messages` is returned
unchanged with an empty map. -/
theorem claim_C10_witness :
    RedactMessages (fun _ => none) (fun _ => []) (fun _ _ => []) [] [104, 105] 0
      = ([104, 105], TokenMap.empty, 0) ∧
    RedactMessages (fun _ => some (Json.obj [])) (fun _ => []) (fun _ _ => []) []
      [123, 125] 0 = ([123, 125], TokenMap.empty, 0) := by
  constructor
  · have h := (claim_C10_redact_messages_fallback_paths (fun _ => none) (fun _ => [])
      (fun _ _ => []) [] [104, 105] 0).1 rfl
    rw [h]
    decide
  · exact (claim_C10_redact_messages_fallback_paths (fun _ => some (Json.obj []))
      (fun _ => []) (fun _ _ => []) [] [123, 125] 0).2 [] rfl rfl

/-- C8 counterexample: with a single discovered endpoint and persistent
transport errors, attempts 2 and 3 pick the endpoint whose address was
already tried (the `pickEndpointExcluding` fallback "All candidates
exhausted; fall back to any endpoint"), so "every attempt picks an endpoint
whose address is not in the set of addresses already tried" is false as
stated. -/
theorem claim_C8_counterexample :
    ((clientDo epsEx netFail rndZero).trace.map (fun e => e.1.address))
      = [[97], [97], [97]] ∧
    [97] ∈ (((clientDo epsEx netFail rndZero).trace.take 1).map
      (fun e => e.1.address)) := by decide

/-- C5: the spans actually applied by `redactText` — after validation,
descending sort, and deduplication — are pairwise disjoint intervals, and
each replacement's `matched` operand is exactly the original text's bytes
`text[start:end]`: the descending walk leaves every smaller offset
unshifted. -/
theorem claim_C5_applied_spans_disjoint_and_splice_original
    (text : List Nat) (spans : List Span) (tm : TokenMap) (counter : Nat) :
    List.Pairwise spanDisjoint
      (deduplicateSpans (sortSpansDesc (validSpans text spans))) ∧
    (applySpans text (deduplicateSpans (sortSpansDesc (validSpans text spans)))
        tm counter).2.2.2 =
      (deduplicateSpans (sortSpansDesc (validSpans text spans))).map
        (fun sp => goSlice text sp.start sp.stop) := by
  have hmem : ∀ sp ∈ deduplicateSpans (sortSpansDesc (validSpans text spans)),
      sp ∈ validSpans text spans := by
    intro sp hsp
    exact mem_sortSpansDesc.mp (mem_dedupGo hsp)
  have hbounds : ∀ sp ∈ deduplicateSpans (sortSpansDesc (validSpans text spans)),
      0 ≤ sp.start ∧ sp.start < sp.stop ∧ sp.stop ≤ (text.length : Int) := by
    intro sp hsp
    exact validSpans_bounds (hmem sp hsp)
  have hposSorted : ∀ sp ∈ sortSpansDesc (validSpans text spans), 0 ≤ sp.start := by
    intro sp hsp
    exact (validSpans_bounds (mem_sortSpansDesc.mp hsp)).1
  have hch : List.Chain' (fun a b => b.stop ≤ a.start)
      (deduplicateSpans (sortSpansDesc (validSpans text spans))) :=
    (dedupGo_chain (sortSpansDesc (validSpans text spans)) (-1) hposSorted).1
  have hlt : ∀ sp ∈ deduplicateSpans (sortSpansDesc (validSpans text spans)),
      sp.start < sp.stop := fun sp hsp => (hbounds sp hsp).2.1
  constructor
  · exact (chain_pairwise hch hlt).imp (fun h => Or.inr h)
  · refine applySpans_matched _ text text tm counter text.length rfl le_rfl ?_ ?_ hch
    · intro sp hsp
      exact ⟨(hbounds sp hsp).1, (hbounds sp hsp).2.1⟩
    · intro hd hmem2
      have : hd ∈ deduplicateSpans (sortSpansDesc (validSpans text spans)) :=
        List.mem_of_mem_head? hmem2
      exact (hbounds hd this).2.2

theorem alookup_eq_none_iff (x : List Nat) (l : List (List Nat × List Nat)) :
    alookup x l = none ↔ x ∉ l.map Prod.fst := by
  induction l with
  | nil => simp [alookup]
  | cons p rest ih =>
    rw [alookup]
    by_cases h : x = p.1
    · simp [h]
    · simp only [List.map_cons, List.mem_cons]
      rw [if_neg h, ih]
      tauto

theorem repOrig_injective : Function.Injective repOrig := by
  intro a b h
  have := congrArg List.length h
  simpa [repOrig] using this

theorem regFold_snoc (origs : List (List Nat)) (o : List Nat) (tm : TokenMap) (c : Nat) :
    regFold (origs ++ [o]) tm c =
      ((registerTok (regFold origs tm c).1 (regFold origs tm c).2 o).2.1,
       (registerTok (regFold origs tm c).1 (regFold origs tm c).2 o).2.2) := by
  simp [regFold, List.foldl_append]

/-- After registering `repOrig 0 .. repOrig (n-1)` into a fresh map with
counter 0, the counter is `n` and the map's keys are exactly those
originals (most recent first). -/
theorem regFold_range_spec (n : Nat) :
    (regFold ((List.range n).map repOrig) TokenMap.empty 0).2 = n ∧
    ((regFold ((List.range n).map repOrig) TokenMap.empty 0).1.toToken.map Prod.fst)
      = ((List.range n).map repOrig).reverse := by
  induction n with
  | zero => constructor <;> rfl
  | succ n ih =>
    rw [List.range_succ, List.map_append]
    simp only [List.map_cons, List.map_nil]
    rw [regFold_snoc]
    obtain ⟨ihc, ihk⟩ := ih
    have hnotin : repOrig n ∉
        ((regFold ((List.range n).map repOrig) TokenMap.empty 0).1.toToken.map Prod.fst) := by
      rw [ihk, List.mem_reverse]
      intro hmem
      obtain ⟨i, hi, heq⟩ := List.mem_map.mp hmem
      have := repOrig_injective heq
      subst this
      exact absurd (List.mem_range.mp hi) (lt_irrefl i)
    have hlk : alookup (repOrig n)
        (regFold ((List.range n).map repOrig) TokenMap.empty 0).1.toToken = none :=
      (alookup_eq_none_iff _ _).mpr hnotin
    constructor
    · rw [registerTok, hlk]
      simpa using ihc
    · rw [registerTok, hlk]
      simp only [List.reverse_append, List.reverse_cons, List.reverse_nil,
        List.nil_append, List.cons_append, List.map_cons]
      rw [ihk]

/-- The `runOps` on `opsN` keeps one map, registered by `regFold`. -/
theorem runOps_opsN (n : Nat) :
    runOps (opsN n) =
      ⟨[(regFold ((List.range n).map repOrig) TokenMap.empty 0).1],
       (regFold ((List.range n).map repOrig) TokenMap.empty 0).2⟩ := by
  have key : ∀ (origs : List (List Nat)) (tm : TokenMap) (c : Nat),
      List.foldl gstep ⟨[tm], c⟩ (origs.map (fun o => GOp.reg 0 o)) =
        ⟨[(regFold origs tm c).1], (regFold origs tm c).2⟩ := by
    intro origs
    induction origs with
    | nil => intro tm c; rfl
    | cons o os ih =>
      intro tm c
      simp only [List.map_cons, List.foldl_cons]
      have hstep : gstep ⟨[tm], c⟩ (GOp.reg 0 o) =
          ⟨[(registerTok tm c o).2.1], (registerTok tm c o).2.2⟩ := by
        simp [gstep]
      rw [hstep, ih]
      simp [regFold]
  have hops : opsN n = GOp.newMap :: (((List.range n).map repOrig).map (fun o => GOp.reg 0 o)) := by
    simp [opsN, List.map_map]
  rw [runOps, hops, List.foldl_cons]
  have hinit : gstep ⟨[], 0⟩ GOp.newMap = ⟨[TokenMap.empty], 0⟩ := rfl
  rw [hinit, key]

/-- The next fresh registration after the `opsN n` run: the counter is `n`
and the produced token is `tokenFor (n+1)` (proved symbolically; no
million-step evaluation is involved). -/
theorem opsN_next_token (n : Nat) :
    (runOps (opsN n)).counter = n ∧
    (registerTok ((runOps (opsN n)).maps.getD 0 TokenMap.empty)
      (runOps (opsN n)).counter (repOrig n)).1 = tokenFor (n + 1) := by
  have hro := runOps_opsN n
  have hspec := regFold_range_spec n
  have hnotin : repOrig n ∉
      ((regFold ((List.range n).map repOrig) TokenMap.empty 0).1.toToken.map Prod.fst) := by
    rw [hspec.2, List.mem_reverse]
    intro hmem
    obtain ⟨i, hi, heq⟩ := List.mem_map.mp hmem
    have := repOrig_injective heq
    subst this
    exact absurd (List.mem_range.mp hi) (lt_irrefl i)
  have hlk : alookup (repOrig n)
      (regFold ((List.range n).map repOrig) TokenMap.empty 0).1.toToken = none :=
    (alookup_eq_none_iff _ _).mpr hnotin
  constructor
  · rw [hro]
    exact hspec.1
  · rw [hro]
    simp only [List.getD_cons_zero, registerTok, hlk]
    rw [hspec.1]

/-- C6 counterexample: after 999 999 registrations the process counter is
999 999 and the next fresh registration formats id 1 000 000, whose token
`«TOKEN_1000000»` has seven digits — not the claimed exactly-six-digit
shape. -/
theorem claim_C6_counterexample :
    (runOps (opsN 999999)).counter = 999999 ∧
    (registerTok ((runOps (opsN 999999)).maps.getD 0 TokenMap.empty)
      (runOps (opsN 999999)).counter (repOrig 999999)).1 = tokenFor 1000000 ∧
    ¬ sixDigitTokenShape (tokenFor 1000000) := by
  refine ⟨(opsN_next_token 999999).1, ?_, ?_⟩
  · exact ((opsN_next_token 999999).2).trans (congrArg tokenFor (by norm_num))
  · rintro ⟨ds, hlen, -, heq⟩
    have hform : tokenFor 1000000 =
        guillOpen ++ asciiBytes "TOKEN_" ++ padZeros 6 (natDigits 1000000) ++ guillClose := rfl
    rw [hform] at heq
    have h1 := List.append_cancel_right heq
    have h2 := List.append_cancel_left h1
    have h7 : (padZeros 6 (natDigits 1000000)).length = 7 := by decide
    rw [← h2] at hlen
    omega

/-- Upper bound on decimal length: below `10^k`, at most `k` digits. -/
theorem natDigits_length_le (n k : Nat) (hk : 1 ≤ k) (h : n < 10 ^ k) :
    (natDigits n).length ≤ k := by
  induction n using Nat.strong_induction_on generalizing k with
  | _ n ih =>
    rw [natDigits_eq]
    by_cases h10 : n < 10
    · simp [h10]; omega
    · rw [if_neg h10]
      simp only [List.length_append, List.length_cons, List.length_nil]
      have hk2 : 2 ≤ k := by
        by_contra hc
        have : k = 1 := by omega
        subst this
        simp at h
        omega
      have hdiv : n / 10 < 10 ^ (k - 1) := by
        have h1 : n < 10 ^ (k - 1) * 10 := by
          have : 10 ^ (k - 1) * 10 = 10 ^ k := by
            rw [← pow_succ]
            congr 1
            omega
          omega
        omega
      have := ih (n / 10) (Nat.div_lt_self (by omega) (by omega)) (k - 1) (by omega) hdiv
      omega

/-- Decomposition of the flattened token lists around index `i`. -/
theorem flatten_map_decomp (l : List TokenMap) (i : Nat) (hi : i < l.length) :
    (l.map (fun tm => tm.fromToken.map Prod.fst)).flatten =
      ((l.take i).map (fun tm => tm.fromToken.map Prod.fst)).flatten ++
        ((l[i]).fromToken.map Prod.fst ++
         ((l.drop (i + 1)).map (fun tm => tm.fromToken.map Prod.fst)).flatten) := by
  conv_lhs => rw [← List.take_append_drop i l, List.drop_eq_getElem_cons hi]
  rw [List.map_append, List.map_cons, List.flatten_append, List.flatten_cons]

theorem flatten_map_mid (l1 l2 : List TokenMap) (tm : TokenMap) :
    ((l1 ++ tm :: l2).map (fun tm => tm.fromToken.map Prod.fst)).flatten =
      (l1.map (fun tm => tm.fromToken.map Prod.fst)).flatten ++
        (tm.fromToken.map Prod.fst ++
         (l2.map (fun tm => tm.fromToken.map Prod.fst)).flatten) := by
  rw [List.map_append, List.map_cons, List.flatten_append, List.flatten_cons]

theorem gstep_inv (st : GState) (op : GOp) (h : TokInv st) : TokInv (gstep st op) := by
  obtain ⟨hids, hnd⟩ := h
  cases op with
  | newMap =>
    have hsame : allTokens (gstep st GOp.newMap) = allTokens st := by
      simp [gstep, allTokens, TokenMap.empty]
    constructor
    · intro tok htok
      rw [hsame] at htok
      exact hids tok htok
    · rw [hsame]
      exact hnd
  | reg i orig =>
    by_cases hi : i < st.maps.length
    · have hgetD : st.maps.getD i TokenMap.empty = st.maps[i] := by
        rw [List.getD_eq_getElem?_getD, List.getElem?_eq_getElem hi]
        rfl
      have hsplit : st.maps = st.maps.take i ++ st.maps[i] :: st.maps.drop (i + 1) := by
        conv_lhs => rw [← List.take_append_drop i st.maps]
        rw [List.drop_eq_getElem_cons hi]
      cases hlk : alookup orig (st.maps[i]).toToken with
      | some tok =>
        -- existing original: nothing changes
        have hstep : gstep st (GOp.reg i orig) = ⟨st.maps.set i st.maps[i], st.counter⟩ := by
          simp only [gstep, if_pos hi, hgetD, registerTok, hlk]
        have hset : st.maps.set i st.maps[i] = st.maps := by
          rw [List.set_eq_take_cons_drop _ hi]
          conv_rhs => rw [hsplit]
        rw [hstep, hset]
        exact ⟨hids, hnd⟩
      | none =>
        -- fresh original: one new token tokenFor (counter+1)
        have hstep : gstep st (GOp.reg i orig) =
            ⟨st.maps.set i
              ⟨(orig, tokenFor (st.counter + 1)) :: (st.maps[i]).toToken,
               (tokenFor (st.counter + 1), orig) :: (st.maps[i]).fromToken⟩,
             st.counter + 1⟩ := by
          simp only [gstep, if_pos hi, hgetD, registerTok, hlk]
        set tm2 : TokenMap :=
          ⟨(orig, tokenFor (st.counter + 1)) :: (st.maps[i]).toToken,
           (tokenFor (st.counter + 1), orig) :: (st.maps[i]).fromToken⟩ with htm2
        have hsetd : st.maps.set i tm2 =
            st.maps.take i ++ tm2 :: st.maps.drop (i + 1) :=
          List.set_eq_take_cons_drop _ hi
        have h1 : allTokens ⟨st.maps.set i tm2, st.counter + 1⟩ =
            ((st.maps.take i).map (fun tm => tm.fromToken.map Prod.fst)).flatten ++
              tokenFor (st.counter + 1) ::
                ((st.maps[i]).fromToken.map Prod.fst ++
                 ((st.maps.drop (i + 1)).map (fun tm => tm.fromToken.map Prod.fst)).flatten) := by
          simp only [allTokens]
          rw [hsetd, flatten_map_mid]
          rfl
        have h2 : allTokens st =
            ((st.maps.take i).map (fun tm => tm.fromToken.map Prod.fst)).flatten ++
              ((st.maps[i]).fromToken.map Prod.fst ++
               ((st.maps.drop (i + 1)).map (fun tm => tm.fromToken.map Prod.fst)).flatten) := by
          rw [allTokens]
          exact flatten_map_decomp st.maps i hi
        have hperm : List.Perm (allTokens ⟨st.maps.set i tm2, st.counter + 1⟩)
            (tokenFor (st.counter + 1) :: allTokens st) := by
          rw [h1, h2]
          exact List.perm_middle
        rw [hstep]
        constructor
        · intro tok htok
          rw [hperm.mem_iff] at htok
          rcases List.mem_cons.mp htok with hA | hB
          · exact ⟨st.counter + 1, Nat.le_add_left 1 st.counter,
              le_refl (st.counter + 1), hA⟩
          · obtain ⟨id, hid1, hid2, hid3⟩ := hids tok hB
            exact ⟨id, hid1, Nat.le_succ_of_le hid2, hid3⟩
        · rw [hperm.nodup_iff, List.nodup_cons]
          refine ⟨?_, hnd⟩
          intro hmem
          obtain ⟨id, hid1, hid2, hid3⟩ := hids _ hmem
          have := tokenFor_injective hid3.symm
          omega
    · have hstep : gstep st (GOp.reg i orig) = st := by
        simp [gstep, hi]
      rw [hstep]
      exact ⟨hids, hnd⟩

theorem runOps_inv (ops : List GOp) : TokInv (runOps ops) := by
  have key : ∀ (l : List GOp) (st : GState), TokInv st → TokInv (l.foldl gstep st) := by
    intro l
    induction l with
    | nil => intro st h; exact h
    | cons op rest ih =>
      intro st h
      exact ih _ (gstep_inv st op h)
  refine key ops ⟨[], 0⟩ ?_
  constructor
  · intro tok htok
    simp [allTokens] at htok
  · simp [allTokens]

/-- C6 (amended): every placeholder recorded by `register` across the
process lifetime is `«TOKEN_` + the counter id zero-padded to *at least*
six decimal digits + `»` — exactly six precisely when the id is below
10⁶ — and all placeholders across all TokenMaps are pairwise distinct
(ids come from the monotonically increasing process-wide counter). -/
theorem claim_C6_amended (ops : List GOp) (tok : List Nat)
    (htok : tok ∈ allTokens (runOps ops)) :
    (∃ id, 1 ≤ id ∧ tok = tokenFor id ∧
      6 ≤ (padZeros 6 (natDigits id)).length ∧
      ((padZeros 6 (natDigits id)).length = 6 ↔ id < 1000000)) ∧
    (allTokens (runOps ops)).Nodup := by
  obtain ⟨hids, hnd⟩ := runOps_inv ops
  refine ⟨?_, hnd⟩
  obtain ⟨id, hid1, -, hid3⟩ := hids tok htok
  refine ⟨id, hid1, hid3, ?_, ?_⟩
  · simp only [padZeros, List.length_append, List.length_replicate]
    omega
  · simp only [padZeros, List.length_append, List.length_replicate]
    constructor
    · intro hlen
      by_contra hge
      have h7 : 7 ≤ (natDigits id).length :=
        natDigits_length_ge id 6 (by omega)
      omega
    · intro hlt
      have hle : (natDigits id).length ≤ 6 :=
        natDigits_length_le id 6 (by omega) (by omega)
      omega

/-- Witness for C6 (amended) at a concrete run: one request map, one
registration; the recorded token is `«TOKEN_000001»`. -/
theorem claim_C6_witness :
    tokenFor 1 ∈ allTokens (runOps [GOp.newMap, GOp.reg 0 [97]]) ∧
    ((∃ id, 1 ≤ id ∧ tokenFor 1 = tokenFor id ∧
      6 ≤ (padZeros 6 (natDigits id)).length ∧
      ((padZeros 6 (natDigits id)).length = 6 ↔ id < 1000000)) ∧
    (allTokens (runOps [GOp.newMap, GOp.reg 0 [97]])).Nodup) :=
  ⟨by decide, claim_C6_amended [GOp.newMap, GOp.reg 0 [97]] (tokenFor 1) (by decide)⟩

theorem natBytesAux_fuel (n : Nat) : ∀ (fuel : Nat), n < fuel →
    natBytesAux fuel n = natToBytesBE n := by
  induction n using Nat.strong_induction_on with
  | _ n ih =>
    intro fuel hf
    match fuel with
    | f + 1 =>
      rw [natToBytesBE, natBytesAux, natBytesAux]
      by_cases h : n = 0
      · simp [h]
      · rw [if_neg h, if_neg h]
        have hd : n / 256 < n := Nat.div_lt_self (by omega) (by omega)
        rw [ih (n / 256) hd f (by omega), ih (n / 256) hd n (by omega)]

theorem natToBytesBE_eq (n : Nat) :
    natToBytesBE n = if n = 0 then [] else natToBytesBE (n / 256) ++ [n % 256] := by
  rw [natToBytesBE, natBytesAux]
  by_cases h : n = 0
  · simp [h]
  · rw [if_neg h, if_neg h,
      natBytesAux_fuel (n / 256) n (Nat.div_lt_self (by omega) (by omega))]

theorem natToBytesBE_length_le (k : Nat) : ∀ (n : Nat), n < 256 ^ k →
    (natToBytesBE n).length ≤ k := by
  induction k with
  | zero =>
    intro n h
    have : n = 0 := by simpa using h
    subst this
    simp [natToBytesBE, natBytesAux]
  | succ k ih =>
    intro n h
    rw [natToBytesBE_eq]
    by_cases h0 : n = 0
    · simp [h0]
    · rw [if_neg h0]
      simp only [List.length_append, List.length_cons, List.length_nil]
      have hdiv : n / 256 < 256 ^ k := by
        rw [Nat.div_lt_iff_lt_mul (by omega)]
        calc n < 256 ^ (k + 1) := h
        _ = 256 ^ k * 256 := by ring
      have := ih (n / 256) hdiv
      omega

/-- Low-S normalisation always lands at or below `n/2`. -/
theorem lowS_le_half (N s : Nat) (h : s < N) :
    (if s > N / 2 then N - s else s) ≤ N / 2 := by
  split <;> omega

/-- The 64-byte buffer layout: for `r`, `s` with at most 32 bytes each, the
two copies produce exactly the zero-padded big-endian concatenation. -/
theorem signEncode_eq (r s : Nat)
    (hr : (natToBytesBE r).length ≤ 32) (hs : (natToBytesBE s).length ≤ 32) :
    signEncode r s = padBytes 32 (natToBytesBE r) ++ padBytes 32 (natToBytesBE s) := by
  unfold signEncode overwriteAt
  set rB := natToBytesBE r with hrB
  set sB := natToBytesBE s with hsB
  have h32 : 32 - rB.length + rB.length = 32 := by omega
  have ho1 : (List.replicate 64 0).take (32 - rB.length) ++ rB ++
      (List.replicate 64 0).drop (32 - rB.length + rB.length) =
      List.replicate (32 - rB.length) 0 ++ rB ++ List.replicate 32 0 := by
    rw [h32, List.take_replicate, List.drop_replicate]
    congr 1
    · congr 2
      omega
  rw [ho1]
  have hlen1 : (List.replicate (32 - rB.length) 0 ++ rB ++ List.replicate 32 0).length = 64 := by
    simp only [List.length_append, List.length_replicate]
    omega
  have hdrop : (List.replicate (32 - rB.length) 0 ++ rB ++ List.replicate 32 0).drop
      (64 - sB.length + sB.length) = [] := by
    apply List.drop_eq_nil_of_le
    rw [hlen1]
    omega
  rw [hdrop]
  have htake : (List.replicate (32 - rB.length) 0 ++ rB ++ List.replicate 32 0).take
      (64 - sB.length) =
      (List.replicate (32 - rB.length) 0 ++ rB) ++ List.replicate (32 - sB.length) 0 := by
    rw [List.take_append_eq_append_take]
    have hfirst : (List.replicate (32 - rB.length) 0 ++ rB).length = 32 := by
      simp only [List.length_append, List.length_replicate]
      omega
    rw [List.take_of_length_le (by omega), List.take_replicate]
    congr 1
    rw [hfirst]
    congr 1
    omega
  rw [htake]
  simp only [padBytes, List.append_assoc, List.append_nil]

/-- C7: for every private scalar, payload, address, and fixed timestamp,
`Sign` is deterministic (the embedding is a pure function of these inputs;
the only ambient input, `time.Now`, is the explicit `ts`), the emitted
`(r, s)` satisfies low-S (`s ≤ n/2` for the secp256k1 group order), and
the returned string is the base64 of exactly 64 bytes: big-endian `r` then
big-endian `s`, each zero-padded on the left to 32 bytes. -/
theorem claim_C7_sign_deterministic_lowS_encoding
    (d : Nat) (payload addr : List Nat) (ts : Nat) :
    signerSign d payload addr ts = signerSign d payload addr ts ∧
    (signRS d payload addr ts).2 ≤ secpN / 2 ∧
    signEncode (signRS d payload addr ts).1 (signRS d payload addr ts).2 =
      padBytes 32 (natToBytesBE (signRS d payload addr ts).1) ++
      padBytes 32 (natToBytesBE (signRS d payload addr ts).2) ∧
    (signEncode (signRS d payload addr ts).1 (signRS d payload addr ts).2).length = 64 ∧
    signerSign d payload addr ts =
      base64Encode (signEncode (signRS d payload addr ts).1 (signRS d payload addr ts).2) := by
  have hNpos : 0 < secpN := by decide
  have hrlt : (signRS d payload addr ts).1 < secpN := by
    simp only [signRS, rfc6979Sign]
    exact Nat.mod_lt _ hNpos
  have hslt0 : (rfc6979Sign d (sha256 (hexLower (sha256 payload) ++ natDigits ts ++ addr))).2
      < secpN := by
    simp only [rfc6979Sign]
    exact Nat.mod_lt _ hNpos
  have hshift : secpN >>> 1 = secpN / 2 := by
    rw [Nat.shiftRight_eq_div_pow]
  have hslow : (signRS d payload addr ts).2 ≤ secpN / 2 := by
    simp only [signRS, hshift]
    exact lowS_le_half secpN _ hslt0
  have hN32 : secpN < 256 ^ 32 := by decide
  have hr32 : (natToBytesBE (signRS d payload addr ts).1).length ≤ 32 :=
    natToBytesBE_length_le 32 _ (by omega)
  have hs32 : (natToBytesBE (signRS d payload addr ts).2).length ≤ 32 := by
    apply natToBytesBE_length_le 32
    have : (signRS d payload addr ts).2 ≤ secpN / 2 := hslow
    omega
  have henc := signEncode_eq _ _ hr32 hs32
  refine ⟨rfl, hslow, henc, ?_, rfl⟩
  rw [henc]
  simp only [padBytes, List.length_append, List.length_replicate]
  omega

theorem pick_mem {eps : List UEndpoint} {excl : List (List Nat)} {rnd : Nat}
    {ep : UEndpoint} (h : pickEndpointExcluding eps excl rnd = some ep) : ep ∈ eps := by
  rw [pickEndpointExcluding] at h
  by_cases heps : eps = []
  · rw [if_pos heps] at h
    exact absurd h (by simp)
  · rw [if_neg heps] at h
    by_cases hc : eps.filter (fun e => decide (e.address ∉ excl)) = []
    · rw [hc, if_pos rfl] at h
      have hlen : 0 < eps.length := List.length_pos.mpr heps
      have hidx : rnd % eps.length < eps.length := Nat.mod_lt _ hlen
      rw [List.getD_eq_getElem?_getD, List.getElem?_eq_getElem hidx] at h
      simp only [Option.getD_some, Option.some.injEq] at h
      rw [← h]
      exact List.getElem_mem hidx
    · rw [if_neg hc] at h
      have hlen : 0 < (eps.filter (fun e => decide (e.address ∉ excl))).length :=
        List.length_pos.mpr hc
      have hidx : rnd % (eps.filter (fun e => decide (e.address ∉ excl))).length <
          (eps.filter (fun e => decide (e.address ∉ excl))).length := Nat.mod_lt _ hlen
      rw [List.getD_eq_getElem?_getD, List.getElem?_eq_getElem hidx] at h
      simp only [Option.getD_some, Option.some.injEq] at h
      rw [← h]
      exact List.mem_of_mem_filter (List.getElem_mem hidx)

theorem pick_fresh {eps : List UEndpoint} {excl : List (List Nat)} {rnd : Nat}
    {ep : UEndpoint} (hex : ∃ e ∈ eps, e.address ∉ excl)
    (h : pickEndpointExcluding eps excl rnd = some ep) : ep.address ∉ excl := by
  obtain ⟨e, hee, hne⟩ := hex
  have heps : eps ≠ [] := by
    intro hc
    rw [hc] at hee
    exact absurd hee (by simp)
  have hc : eps.filter (fun x => decide (x.address ∉ excl)) ≠ [] := by
    intro hnil
    have : e ∈ eps.filter (fun x => decide (x.address ∉ excl)) :=
      List.mem_filter.mpr ⟨hee, by simpa using hne⟩
    rw [hnil] at this
    exact absurd this (by simp)
  rw [pickEndpointExcluding, if_neg heps, if_neg hc] at h
  have hlen : 0 < (eps.filter (fun x => decide (x.address ∉ excl))).length :=
    List.length_pos.mpr hc
  have hidx : rnd % (eps.filter (fun x => decide (x.address ∉ excl))).length <
      (eps.filter (fun x => decide (x.address ∉ excl))).length := Nat.mod_lt _ hlen
  rw [List.getD_eq_getElem?_getD, List.getElem?_eq_getElem hidx] at h
  simp only [Option.getD_some, Option.some.injEq] at h
  have hmem : ep ∈ eps.filter (fun x => decide (x.address ∉ excl)) := by
    rw [← h]
    exact List.getElem_mem hidx
  have := (List.mem_filter.mp hmem).2
  simpa using this

/-- Full behaviour of the `Client.Do` attempt loop, by induction on the
remaining attempt budget. -/
theorem clientDoAux_spec (eps : List UEndpoint)
    (net : Nat → UEndpoint → Except Unit (Nat × List Nat)) (rnd : Nat → Nat) :
    ∀ (r attempt : Nat) (tried : List (List Nat)),
    (clientDoAux eps net rnd r attempt tried).trace.length ≤ r ∧
    (∀ i, i + 1 < (clientDoAux eps net rnd r attempt tried).trace.length →
      ∃ e, ((clientDoAux eps net rnd r attempt tried).trace.getD i dfltEntry).2
        = Except.error e) ∧
    (∀ i st b, i < (clientDoAux eps net rnd r attempt tried).trace.length →
      ((clientDoAux eps net rnd r attempt tried).trace.getD i dfltEntry).2
        = Except.ok (st, b) →
      i + 1 = (clientDoAux eps net rnd r attempt tried).trace.length ∧
      (clientDoAux eps net rnd r attempt tried).result = some (b, st)) ∧
    (∀ i, i < (clientDoAux eps net rnd r attempt tried).trace.length →
      (∃ e ∈ eps, e.address ∉ tried ++
        (((clientDoAux eps net rnd r attempt tried).trace.take i).map
          (fun x => x.1.address))) →
      ((clientDoAux eps net rnd r attempt tried).trace.getD i dfltEntry).1.address ∉
        tried ++ (((clientDoAux eps net rnd r attempt tried).trace.take i).map
          (fun x => x.1.address))) := by
  intro r
  induction r with
  | zero =>
    intro attempt tried
    refine ⟨by simp [clientDoAux], ?_, ?_, ?_⟩ <;> intro i <;> simp [clientDoAux]
  | succ r ih =>
    intro attempt tried
    cases hpick : pickEndpointExcluding eps tried (rnd attempt) with
    | none =>
      have hrun : clientDoAux eps net rnd (r + 1) attempt tried = ⟨[], none⟩ := by
        simp [clientDoAux, hpick]
      refine ⟨by rw [hrun]; simp, ?_, ?_, ?_⟩ <;> intro i <;> rw [hrun] <;> simp
    | some ep =>
      cases hnet : net attempt ep with
      | error e0 =>
        have hrun : clientDoAux eps net rnd (r + 1) attempt tried =
            ⟨(ep, Except.error e0) ::
              (clientDoAux eps net rnd r (attempt + 1) (tried ++ [ep.address])).trace,
             (clientDoAux eps net rnd r (attempt + 1) (tried ++ [ep.address])).result⟩ := by
          simp [clientDoAux, hpick, hnet]
        obtain ⟨ih1, ih2, ih3, ih4⟩ := ih (attempt + 1) (tried ++ [ep.address])
        rw [hrun]
        refine ⟨?_, ?_, ?_, ?_⟩
        · simp only [List.length_cons]
          omega
        · intro i hi
          simp only [List.length_cons] at hi
          match i with
          | 0 => exact ⟨e0, rfl⟩
          | j + 1 =>
            simp only [List.getD_cons_succ]
            exact ih2 j (by omega)
        · intro i st b hi hok
          simp only [List.length_cons] at hi
          match i with
          | 0 =>
            simp only [List.getD_cons_zero] at hok
            exact absurd hok (by simp)
          | j + 1 =>
            simp only [List.getD_cons_succ] at hok
            obtain ⟨hj, hres⟩ := ih3 j st b (by omega) hok
            constructor
            · simp only [List.length_cons]
              omega
            · exact hres
        · intro i hi hex
          simp only [List.length_cons] at hi
          match i with
          | 0 =>
            simp only [List.take_zero, List.map_nil, List.append_nil] at hex ⊢
            simp only [List.getD_cons_zero]
            exact pick_fresh hex hpick
          | j + 1 =>
            simp only [List.take_succ_cons, List.map_cons, List.getD_cons_succ] at hex ⊢
            rw [List.append_cons tried ep.address] at hex ⊢
            exact ih4 j (by omega) hex
      | ok p =>
        have hrun : clientDoAux eps net rnd (r + 1) attempt tried =
            ⟨[(ep, Except.ok (p.1, p.2))], some (p.2, p.1)⟩ := by
          simp [clientDoAux, hpick, hnet]
        rw [hrun]
        refine ⟨by simp, ?_, ?_, ?_⟩
        · intro i hi
          simp at hi
        · intro i st b hi hok
          simp only [List.length_cons, List.length_nil] at hi
          match i with
          | 0 =>
            simp only [List.getD_cons_zero] at hok
            have h1 : p.1 = st ∧ p.2 = b := by
              have := hok
              simp only [Except.ok.injEq, Prod.mk.injEq] at this
              exact this
            refine ⟨rfl, ?_⟩
            rw [h1.1, h1.2]
        · intro i hi hex
          simp only [List.length_cons, List.length_nil] at hi
          match i with
          | 0 =>
            simp only [List.take_zero, List.map_nil, List.append_nil] at hex ⊢
            simp only [List.getD_cons_zero]
            exact pick_fresh hex hpick

/-- C8 (amended): `Client.Do` makes at most 3 attempts; all attempts but
the last fail with a transport error; an attempt that yields an HTTP
response (any status) is the last one and its body/status are returned
immediately; and every attempt picks an endpoint whose address has not yet
been tried in this call *whenever one exists* (when every endpoint has been
tried already, `pickEndpointExcluding` deliberately falls back to an
arbitrary endpoint). -/
theorem claim_C8_amended (eps : List UEndpoint)
    (net : Nat → UEndpoint → Except Unit (Nat × List Nat)) (rnd : Nat → Nat) :
    (clientDo eps net rnd).trace.length ≤ 3 ∧
    (∀ i, i + 1 < (clientDo eps net rnd).trace.length →
      ∃ e, ((clientDo eps net rnd).trace.getD i dfltEntry).2 = Except.error e) ∧
    (∀ i st b, i < (clientDo eps net rnd).trace.length →
      ((clientDo eps net rnd).trace.getD i dfltEntry).2 = Except.ok (st, b) →
      i + 1 = (clientDo eps net rnd).trace.length ∧
      (clientDo eps net rnd).result = some (b, st)) ∧
    (∀ i, i < (clientDo eps net rnd).trace.length →
      (∃ e ∈ eps, e.address ∉
        (((clientDo eps net rnd).trace.take i).map (fun x => x.1.address))) →
      ((clientDo eps net rnd).trace.getD i dfltEntry).1.address ∉
        (((clientDo eps net rnd).trace.take i).map (fun x => x.1.address))) := by
  obtain ⟨h1, h2, h3, h4⟩ := clientDoAux_spec eps net rnd 3 0 []
  refine ⟨h1, h2, h3, ?_⟩
  intro i hi hex
  have := h4 i hi (by simpa using hex)
  simpa using this

/-- Witness for C8 (amended) at a concrete run: the 500 response of the
second attempt is returned as-is (no retry on HTTP status), and the second
attempt's endpoint was not among the already-tried addresses. -/
theorem claim_C8_witness :
    (clientDo epsEx2 netEx rndZero).result = some ([104], 500) ∧
    ((clientDo epsEx2 netEx rndZero).trace.getD 1 dfltEntry).1.address ∉
      (((clientDo epsEx2 netEx rndZero).trace.take 1).map (fun x => x.1.address)) := by
  have h := claim_C8_amended epsEx2 netEx rndZero
  constructor
  · exact (h.2.2.1 1 500 [104] (by decide) (by rfl)).2
  · exact h.2.2.2 1 (by decide) ⟨⟨[], [98]⟩, by decide, by decide⟩
